import Mathlib

/-!
Verification development for the SPL-token-style ledger program in
`src/spl_token_program/spl-token-program/src/lib.rs`.

The program stores two record kinds (`Mint`, 76-byte borsh prefix;
`TokenAccount`, 74-byte borsh prefix) in caller-supplied byte buffers and
mutates them through six instruction handlers.  We embed the program at the
byte level: buffers are `List Nat` (each entry one byte), borsh
serialization and deserialization are modelled exactly (strict bool and
option tags, little-endian `u64`, `try_from_slice` requiring that the whole
slice be consumed), and each `process_*` handler is translated as a pure
function from the incoming buffers and host-supplied facts (signer flags,
ownership and rent-exemption booleans) to the outgoing buffers plus an
optional error.  Rust's out-of-range slicing (`&data[..76]` on a shorter
buffer) is modelled by the distinguished outcome `ProgErr.panicked`;
unchecked `u64` arithmetic (`+=`, `-=` in release builds) is modelled by
wrapping arithmetic modulo `2^64` (`wadd`, `wsub`).
-/

/-- `2^64`, the modulus of Rust `u64` arithmetic. -/
def U64MOD : Nat := 18446744073709551616

/-- Wrapping `u64` addition (`+=` on `u64` in a release build). -/
def wadd (a b : Nat) : Nat := (a + b) % U64MOD

/-- Wrapping `u64` subtraction (`-=` on `u64` in a release build). -/
def wsub (a b : Nat) : Nat := (a + (U64MOD - b % U64MOD)) % U64MOD

/-- A Solana public key: 32 raw bytes. -/
abbrev Pubkey := List Nat

/-- `data` is a well-formed byte buffer: every entry is below 256. -/
def isBytes (data : List Nat) : Prop := ∀ b ∈ data, b < 256

/-- The program's error enum (`TokenError` in lib.rs). -/
inductive TokenError where
  | InvalidInstruction
  | NotRentExempt
  | InsufficientFunds
  | Unauthorized
  | MintMismatch
  | AccountFrozen
deriving DecidableEq

/-- Program-level results: `TokenError`s surface as `ProgramError::Custom`,
borsh codec failures as `ProgramError::InvalidAccountData`, the ownership
check as `IncorrectProgramId`, and Rust slice-bound violations as a panic. -/
inductive ProgErr where
  | custom (e : TokenError)
  | invalidAccountData
  | incorrectProgramId
  | panicked
deriving DecidableEq

/-- The `Mint` record (lib.rs lines 92-99). -/
structure Mint where
  is_initialized : Bool
  decimals : Nat
  mint_authority : Option Pubkey
  supply : Nat
  freeze_authority : Option Pubkey
deriving DecidableEq

/-- The `TokenAccount` record (lib.rs lines 126-133). -/
structure TokenAccount where
  is_initialized : Bool
  mint : Pubkey
  owner : Pubkey
  amount : Nat
  is_frozen : Bool
deriving DecidableEq

/-- `Mint::new` (lib.rs lines 110-122). -/
def Mint.new (decimals : Nat) (mint_authority : Pubkey)
    (freeze_authority : Option Pubkey) : Mint :=
  ⟨true, decimals, some mint_authority, 0, freeze_authority⟩

/-- `TokenAccount::new` (lib.rs lines 138-146). -/
def TokenAccount.new (mint owner : Pubkey) : TokenAccount :=
  ⟨true, mint, owner, 0, false⟩

/-- Borsh encoding of a `bool`: one byte, 0 or 1. -/
def serBool (b : Bool) : List Nat := if b then [1] else [0]

/-- Borsh encoding of a `u64`: eight little-endian bytes. -/
def serU64 (n : Nat) : List Nat :=
  [n % 256, n / 256 % 256, n / 65536 % 256, n / 16777216 % 256,
   n / 4294967296 % 256, n / 1099511627776 % 256,
   n / 281474976710656 % 256, n / 72057594037927936 % 256]

/-- Borsh encoding of an `Option<Pubkey>`: presence byte then the key. -/
def serOptKey : Option Pubkey → List Nat
  | none => [0]
  | some k => 1 :: k

/-- Borsh serialization of `Mint` (field order of the struct). -/
def mintSer (m : Mint) : List Nat :=
  serBool m.is_initialized ++ [m.decimals] ++ serOptKey m.mint_authority
    ++ serU64 m.supply ++ serOptKey m.freeze_authority

/-- Borsh serialization of `TokenAccount` (field order of the struct). -/
def taSer (t : TokenAccount) : List Nat :=
  serBool t.is_initialized ++ t.mint ++ t.owner ++ serU64 t.amount
    ++ serBool t.is_frozen

/-- Borsh `bool` decoding: strict, only bytes 0 and 1 are accepted. -/
def parseBool : List Nat → Option (Bool × List Nat)
  | 0 :: rest => some (false, rest)
  | 1 :: rest => some (true, rest)
  | _ => none

/-- Borsh `u8` decoding: one byte, taken verbatim. -/
def parseU8 : List Nat → Option (Nat × List Nat)
  | b :: rest => some (b, rest)
  | [] => none

/-- Read `n` raw bytes. -/
def parseBytes (n : Nat) (data : List Nat) : Option (List Nat × List Nat) :=
  if n ≤ data.length then some (data.take n, data.drop n) else none

/-- Borsh `u64` decoding: eight little-endian bytes. -/
def parseU64 : List Nat → Option (Nat × List Nat)
  | b0 :: b1 :: b2 :: b3 :: b4 :: b5 :: b6 :: b7 :: rest =>
      some (b0 + 256 * b1 + 65536 * b2 + 16777216 * b3 + 4294967296 * b4
              + 1099511627776 * b5 + 281474976710656 * b6
              + 72057594037927936 * b7, rest)
  | _ => none

/-- Borsh `Option<Pubkey>` decoding: strict presence byte then 32 bytes. -/
def parseOptKey : List Nat → Option (Option Pubkey × List Nat)
  | 0 :: rest => some (none, rest)
  | 1 :: rest => (parseBytes 32 rest).map fun p => (some p.1, p.2)
  | _ => none

/-- Borsh decoding of a `Mint` value from a byte stream. -/
def mintParse (data : List Nat) : Option (Mint × List Nat) :=
  match parseBool data with
  | none => none
  | some (ini, r1) =>
    match parseU8 r1 with
    | none => none
    | some (d, r2) =>
      match parseOptKey r2 with
      | none => none
      | some (ma, r3) =>
        match parseU64 r3 with
        | none => none
        | some (s, r4) =>
          match parseOptKey r4 with
          | none => none
          | some (fa, r5) => some (⟨ini, d, ma, s, fa⟩, r5)

/-- Borsh decoding of a `TokenAccount` value from a byte stream. -/
def taParse (data : List Nat) : Option (TokenAccount × List Nat) :=
  match parseBool data with
  | none => none
  | some (ini, r1) =>
    match parseBytes 32 r1 with
    | none => none
    | some (mi, r2) =>
      match parseBytes 32 r2 with
      | none => none
      | some (ow, r3) =>
        match parseU64 r3 with
        | none => none
        | some (am, r4) =>
          match parseBool r4 with
          | none => none
          | some (fr, r5) => some (⟨ini, mi, ow, am, fr⟩, r5)

/-- `Mint::deserialize` (lib.rs lines 573-596): slices `data[..76]` —
panicking when fewer than 76 bytes are available — then runs
`try_from_slice`, which fails unless the whole 76-byte slice is consumed. -/
def Mint.deserialize (data : List Nat) : Except ProgErr Mint :=
  if data.length < 76 then .error .panicked
  else
    match mintParse (data.take 76) with
    | some (m, []) => .ok m
    | _ => .error .invalidAccountData

/-- `TokenAccount::deserialize` (lib.rs lines 606-610): slices `data[..74]`
then runs `try_from_slice` on the 74-byte slice. -/
def TokenAccount.deserialize (data : List Nat) : Except ProgErr TokenAccount :=
  if data.length < 74 then .error .panicked
  else
    match taParse (data.take 74) with
    | some (t, []) => .ok t
    | _ => .error .invalidAccountData

/-- `borsh::to_writer(&mut data[..], v)`: writes the serialized bytes over
the front of the buffer, leaving the tail untouched; fails when the buffer
is shorter than the serialization. -/
def writeInto (ser data : List Nat) : Except ProgErr (List Nat) :=
  if ser.length ≤ data.length then .ok (ser ++ data.drop ser.length)
  else .error .invalidAccountData

/-- `Mint::serialize` (lib.rs lines 564-567). -/
def Mint.serialize (m : Mint) (data : List Nat) : Except ProgErr (List Nat) :=
  writeInto (mintSer m) data

/-- `TokenAccount::serialize` (lib.rs lines 601-604). -/
def TokenAccount.serialize (t : TokenAccount) (data : List Nat) :
    Except ProgErr (List Nat) :=
  writeInto (taSer t) data

/-- The instruction enum `TokenInstruction` (lib.rs lines 35-89). -/
inductive TokenInstruction where
  | InitializeMint (decimals : Nat) (mint_authority : Pubkey)
      (freeze_authority : Option Pubkey)
  | InitializeAccount
  | MintTo (amount : Nat)
  | Transfer (amount : Nat)
  | Burn (amount : Nat)
  | SetMintAuthority (new_authority : Option Pubkey)
deriving DecidableEq

/-- Borsh wire encoding of `TokenInstruction`: 1-byte tag then payload. -/
def instrSer : TokenInstruction → List Nat
  | .InitializeMint d a f => 0 :: d :: (a ++ serOptKey f)
  | .InitializeAccount => [1]
  | .MintTo a => 2 :: serU64 a
  | .Transfer a => 3 :: serU64 a
  | .Burn a => 4 :: serU64 a
  | .SetMintAuthority na => 5 :: serOptKey na

/-- An optional key is absent or holds exactly 32 bytes. -/
def optKeyLen (o : Option Pubkey) : Prop := ∀ k, o = some k → k.length = 32

/-- Field ranges guaranteed by the Rust types (`u8`, `[u8;32]`, `u64`). -/
def instrValid : TokenInstruction → Prop
  | .InitializeMint d a f => d < 256 ∧ a.length = 32 ∧ optKeyLen f
  | .InitializeAccount => True
  | .MintTo a => a < U64MOD
  | .Transfer a => a < U64MOD
  | .Burn a => a < U64MOD
  | .SetMintAuthority na => optKeyLen na

/-- Borsh decoding of a `TokenInstruction` from a byte stream: the
derived borsh enum decoder reads a one-byte tag and dispatches. -/
def instrParse (data : List Nat) : Option (TokenInstruction × List Nat) :=
  match data with
  | [] => none
  | t :: rest =>
    if t = 0 then
      match parseU8 rest with
      | none => none
      | some (d, r1) =>
        match parseBytes 32 r1 with
        | none => none
        | some (a, r2) =>
          match parseOptKey r2 with
          | none => none
          | some (f, r3) => some (.InitializeMint d a f, r3)
    else if t = 1 then some (.InitializeAccount, rest)
    else if t = 2 then
      match parseU64 rest with
      | none => none
      | some (a, r1) => some (.MintTo a, r1)
    else if t = 3 then
      match parseU64 rest with
      | none => none
      | some (a, r1) => some (.Transfer a, r1)
    else if t = 4 then
      match parseU64 rest with
      | none => none
      | some (a, r1) => some (.Burn a, r1)
    else if t = 5 then
      match parseOptKey rest with
      | none => none
      | some (na, r1) => some (.SetMintAuthority na, r1)
    else none

/-- `TokenInstruction::try_from_slice` followed by the error mapping in
`process_instruction` (lib.rs lines 159-160): any borsh failure — unknown
tag, truncated payload, or unconsumed trailing bytes — becomes
`TokenError::InvalidInstruction`. -/
def instrDeserialize (data : List Nat) : Except TokenError TokenInstruction :=
  match instrParse data with
  | some (i, []) => .ok i
  | _ => .error .InvalidInstruction

/-- `process_initialize_mint` (lib.rs lines 191-224).  `ownedByProgram` and
`isRentExempt` are the host-supplied facts checked on lines 203 and 209.
Note line 217: the freeze authority actually stored is the hardcoded
`Some(Pubkey::new_from_array([1;32]))`, not the caller's `freezeAuthority`
(the faithful use on line 218 is commented out in the source). -/
def processInitializeMint (mintData : List Nat)
    (ownedByProgram isRentExempt : Bool) (decimals : Nat)
    (mintAuthority : Pubkey) (freezeAuthority : Option Pubkey) :
    List Nat × Option ProgErr :=
  if !ownedByProgram then (mintData, some .incorrectProgramId)
  else if !isRentExempt then (mintData, some (.custom .NotRentExempt))
  else
    match Mint.serialize
        (Mint.new decimals mintAuthority (some (List.replicate 32 1)))
        mintData with
    | .error e => (mintData, some e)
    | .ok d =>
      have _unused := freezeAuthority
      (d, none)

/-- `process_initialize_account` (lib.rs lines 350-379). -/
def processInitializeAccount (tokenData : List Nat)
    (ownedByProgram isRentExempt : Bool) (mintKey ownerKey : Pubkey) :
    List Nat × Option ProgErr :=
  if !ownedByProgram then (tokenData, some .incorrectProgramId)
  else if !isRentExempt then (tokenData, some (.custom .NotRentExempt))
  else
    match TokenAccount.serialize (TokenAccount.new mintKey ownerKey)
        tokenData with
    | .error e => (tokenData, some e)
    | .ok d => (d, none)

/-- `process_mint_to` (lib.rs lines 382-441).  Returns the final contents of
the (mint, token-account) buffers plus `none` on success or `some e` on
failure.  Order of effects follows the source exactly: the read of
`mint_data[43]` (line 399, a panic on buffers shorter than 44 bytes), mint
decode, signer check, authority check, mint write, token decode, token
write.  The mint buffer is written before the token account is decoded. -/
def processMintTo (mintData tokenData : List Nat) (authorityKey : Pubkey)
    (authorityIsSigner : Bool) (amount : Nat) :
    (List Nat × List Nat) × Option ProgErr :=
  if mintData.length < 44 then ((mintData, tokenData), some .panicked)
  else
    match Mint.deserialize mintData with
    | .error e => ((mintData, tokenData), some e)
    | .ok mint =>
      if !authorityIsSigner then
        ((mintData, tokenData), some (.custom .Unauthorized))
      else
        match mint.mint_authority with
        | none => ((mintData, tokenData), some (.custom .Unauthorized))
        | some auth =>
          if auth ≠ authorityKey then
            ((mintData, tokenData), some (.custom .Unauthorized))
          else
            match Mint.serialize { mint with supply := wadd mint.supply amount }
                mintData with
            | .error e => ((mintData, tokenData), some e)
            | .ok mintData2 =>
              match TokenAccount.deserialize tokenData with
              | .error e => ((mintData2, tokenData), some e)
              | .ok ta =>
                match TokenAccount.serialize
                    { ta with amount := wadd ta.amount amount } tokenData with
                | .error e => ((mintData2, tokenData), some e)
                | .ok tokenData2 => ((mintData2, tokenData2), none)

/-- `process_transfer` (lib.rs lines 444-482).  The source account is
decoded, checked (owner, balance), debited and written back before the
destination account is even decoded.  No frozen check, no mint check. -/
def processTransfer (sourceData destData : List Nat) (ownerKey : Pubkey)
    (ownerIsSigner : Bool) (amount : Nat) :
    (List Nat × List Nat) × Option ProgErr :=
  if !ownerIsSigner then ((sourceData, destData), some (.custom .Unauthorized))
  else
    match TokenAccount.deserialize sourceData with
    | .error e => ((sourceData, destData), some e)
    | .ok src =>
      if src.owner ≠ ownerKey then
        ((sourceData, destData), some (.custom .Unauthorized))
      else if src.amount < amount then
        ((sourceData, destData), some (.custom .InsufficientFunds))
      else
        match TokenAccount.serialize { src with amount := wsub src.amount amount }
            sourceData with
        | .error e => ((sourceData, destData), some e)
        | .ok sourceData2 =>
          match TokenAccount.deserialize destData with
          | .error e => ((sourceData2, destData), some e)
          | .ok dst =>
            match TokenAccount.serialize
                { dst with amount := wadd dst.amount amount } destData with
            | .error e => ((sourceData2, destData), some e)
            | .ok destData2 => ((sourceData2, destData2), none)

/-- `process_burn` (lib.rs lines 485-526).  The token account is decoded,
checked, debited and written back, then the mint is decoded and its supply
decremented with no `supply >= amount` check.  No frozen check, no mint
check. -/
def processBurn (tokenData mintData : List Nat) (ownerKey : Pubkey)
    (ownerIsSigner : Bool) (amount : Nat) :
    (List Nat × List Nat) × Option ProgErr :=
  if !ownerIsSigner then ((tokenData, mintData), some (.custom .Unauthorized))
  else
    match TokenAccount.deserialize tokenData with
    | .error e => ((tokenData, mintData), some e)
    | .ok ta =>
      if ta.owner ≠ ownerKey then
        ((tokenData, mintData), some (.custom .Unauthorized))
      else if ta.amount < amount then
        ((tokenData, mintData), some (.custom .InsufficientFunds))
      else
        match TokenAccount.serialize { ta with amount := wsub ta.amount amount }
            tokenData with
        | .error e => ((tokenData, mintData), some e)
        | .ok tokenData2 =>
          match Mint.deserialize mintData with
          | .error e => ((tokenData2, mintData), some e)
          | .ok mint =>
            match Mint.serialize { mint with supply := wsub mint.supply amount }
                mintData with
            | .error e => ((tokenData2, mintData), some e)
            | .ok mintData2 => ((tokenData2, mintData2), none)

/-- `process_set_mint_authority` (lib.rs lines 529-560): decode, signer
check, authority check, then overwrite `mint_authority` with the caller's
`new_authority` and write back. -/
def processSetMintAuthority (mintData : List Nat) (authorityKey : Pubkey)
    (authorityIsSigner : Bool) (newAuthority : Option Pubkey) :
    List Nat × Option ProgErr :=
  match Mint.deserialize mintData with
  | .error e => (mintData, some e)
  | .ok mint =>
    if !authorityIsSigner then (mintData, some (.custom .Unauthorized))
    else
      match mint.mint_authority with
      | none => (mintData, some (.custom .Unauthorized))
      | some auth =>
        if auth ≠ authorityKey then (mintData, some (.custom .Unauthorized))
        else
          match Mint.serialize { mint with mint_authority := newAuthority }
              mintData with
          | .error e => (mintData, some e)
          | .ok d => (d, none)

/-- The decoded mint stored in a buffer, if it decodes. -/
def mintOf (buf : List Nat) : Option Mint :=
  match Mint.deserialize buf with
  | .ok m => some m
  | .error _ => none

/-- The decoded token account stored in a buffer, if it decodes. -/
def taOf (buf : List Nat) : Option TokenAccount :=
  match TokenAccount.deserialize buf with
  | .ok t => some t
  | .error _ => none

/-- The balance recorded in a token-account buffer (0 if undecodable). -/
def amtOf (buf : List Nat) : Nat :=
  match taOf buf with
  | some ta => ta.amount
  | none => 0

/-- A ledger state for the conservation law: the buffer of one mint plus
the buffers of the token accounts belonging to that mint. -/
structure LedgerState where
  mintBuf : List Nat
  accounts : List (List Nat)
deriving DecidableEq

/-- The supply recorded in the mint buffer (0 if undecodable). -/
def supplyOf (s : LedgerState) : Nat :=
  match mintOf s.mintBuf with
  | some m => m.supply
  | none => 0

/-- Sum of the balances of all token-account buffers in the state. -/
def sumAmounts (s : LedgerState) : Nat := (s.accounts.map amtOf).sum

/-- One engine operation on the ledger state, naming the touched account
buffers by position and carrying the host-supplied authorization facts. -/
inductive Op where
  | mintTo (i : Nat) (authorityKey : Pubkey) (isSigner : Bool) (amount : Nat)
  | transfer (i j : Nat) (ownerKey : Pubkey) (isSigner : Bool) (amount : Nat)
  | burn (i : Nat) (ownerKey : Pubkey) (isSigner : Bool) (amount : Nat)
deriving DecidableEq

/-- Apply one operation through the corresponding `process_*` handler,
committing whatever buffer contents the handler returns (also on failure:
the handlers may have partially written).  A transfer whose source and
destination indices coincide is excluded (in the program that call panics
on the second `RefCell` borrow and the runtime discards the transaction),
as are out-of-range indices (the host could not resolve such a request). -/
def applyOp (s : LedgerState) (op : Op) : LedgerState :=
  match op with
  | .mintTo i k sg a =>
    match s.accounts.get? i with
    | none => s
    | some buf =>
      let r := processMintTo s.mintBuf buf k sg a
      ⟨r.1.1, s.accounts.set i r.1.2⟩
  | .transfer i j k sg a =>
    if i = j then s
    else
      match s.accounts.get? i, s.accounts.get? j with
      | some bi, some bj =>
        let r := processTransfer bi bj k sg a
        ⟨s.mintBuf, (s.accounts.set i r.1.1).set j r.1.2⟩
      | _, _ => s
  | .burn i k sg a =>
    match s.accounts.get? i with
    | none => s
    | some buf =>
      let r := processBurn buf s.mintBuf k sg a
      ⟨r.1.2, s.accounts.set i r.1.1⟩

/-- Apply a sequence of operations in order. -/
def applyOps (s : LedgerState) (ops : List Op) : LedgerState :=
  ops.foldl applyOp s

/-- Side conditions under which an operation is admitted for the amended
conservation law: indices in range, a transfer's two accounts distinct, and
a MintTo that does not overflow the 64-bit supply. -/
def opOkb (s : LedgerState) : Op → Bool
  | .mintTo i _ _ a =>
    decide (i < s.accounts.length) && decide (supplyOf s + a < U64MOD)
  | .transfer i j _ _ _ =>
    decide (i < s.accounts.length) && decide (j < s.accounts.length) && !(i == j)
  | .burn i _ _ _ => decide (i < s.accounts.length)

/-- All operations of the sequence satisfy `opOkb` at their point of use. -/
def opsOkb (s : LedgerState) : List Op → Bool
  | [] => true
  | op :: rest => opOkb s op && opsOkb (applyOp s op) rest

/-- The mint buffer is healthy: 76 bytes, decodable, supply in `u64` range,
both authorities present (as `process_initialize_mint` creates it). -/
def mintGoodb (buf : List Nat) : Bool :=
  (buf.length == 76) &&
    match mintOf buf with
    | some m =>
      decide (m.supply < U64MOD) && m.mint_authority.isSome
        && m.freeze_authority.isSome
    | none => false

/-- A token-account buffer is healthy: 74 bytes, decodable, balance in
`u64` range. -/
def accGoodb (buf : List Nat) : Bool :=
  (buf.length == 74) &&
    match taOf buf with
    | some ta => decide (ta.amount < U64MOD)
    | none => false

/-- The consistency invariant of a ledger state, including the conservation
law `supply = Σ amounts`. -/
def invB (s : LedgerState) : Bool :=
  mintGoodb s.mintBuf && s.accounts.all accGoodb
    && (supplyOf s == sumAmounts s)

/-! ### Concrete keys and records used in the closed evaluations -/

/-- A concrete mint-authority key. -/
def keyA : Pubkey := List.replicate 32 2

/-- A concrete mint address (stored in token accounts' `mint` field). -/
def keyM : Pubkey := List.replicate 32 3

/-- A concrete account-owner key. -/
def keyO : Pubkey := List.replicate 32 4

/-- A second concrete owner key. -/
def keyP : Pubkey := List.replicate 32 5

/-- A concrete second mint address, different from `keyM`. -/
def keyQ : Pubkey := List.replicate 32 9

/-- The freeze authority the code hardcodes: `Pubkey::new_from_array([1;32])`
(lib.rs line 217). -/
def keyHard : Pubkey := List.replicate 32 1

/-- The mint record produced by a fresh `InitializeMint(decimals=9, A)`. -/
def mint0 : Mint := ⟨true, 9, some keyA, 0, some keyHard⟩

/-- A fresh token account of mint `keyM` owned by `keyO`. -/
def acct0 : TokenAccount := ⟨true, keyM, keyO, 0, false⟩

/-! ### Primitive codec lemmas -/

theorem isBytes_append {a b : List Nat} :
    isBytes (a ++ b) ↔ isBytes a ∧ isBytes b := by
  simp only [isBytes, List.mem_append]
  constructor
  · intro h
    exact ⟨fun x hx => h x (Or.inl hx), fun x hx => h x (Or.inr hx)⟩
  · rintro ⟨h1, h2⟩ x (hx | hx)
    exacts [h1 x hx, h2 x hx]

theorem isBytes_cons {b : Nat} {l : List Nat} :
    isBytes (b :: l) ↔ b < 256 ∧ isBytes l := by
  simp [isBytes]

theorem isBytes_take {l : List Nat} (h : isBytes l) (n : Nat) :
    isBytes (l.take n) :=
  fun b hb => h b (List.take_subset _ _ hb)

theorem parseBool_ser (b : Bool) (rest : List Nat) :
    parseBool (serBool b ++ rest) = some (b, rest) := by
  cases b <;> rfl

theorem parseBool_sound {data : List Nat} {b : Bool} {rest : List Nat}
    (h : parseBool data = some (b, rest)) : data = serBool b ++ rest := by
  unfold parseBool at h
  split at h <;> simp_all [serBool]

theorem parseU8_cons (b : Nat) (rest : List Nat) :
    parseU8 (b :: rest) = some (b, rest) := rfl

theorem parseU8_sound {data : List Nat} {b : Nat} {rest : List Nat}
    (h : parseU8 data = some (b, rest)) : data = b :: rest := by
  unfold parseU8 at h
  split at h <;> simp_all

theorem parseBytes_complete {k : List Nat} {n : Nat} (h : k.length = n)
    (rest : List Nat) : parseBytes n (k ++ rest) = some (k, rest) := by
  subst h
  simp [parseBytes, List.take_left, List.drop_left]

theorem parseBytes_sound {n : Nat} {data k rest : List Nat}
    (h : parseBytes n data = some (k, rest)) :
    data = k ++ rest ∧ k.length = n := by
  unfold parseBytes at h
  split at h
  · rename_i hn
    simp only [Option.some.injEq, Prod.mk.injEq] at h
    obtain ⟨hk, hr⟩ := h
    subst hk; subst hr
    exact ⟨(List.take_append_drop n data).symm, by simp [hn]⟩
  · simp at h

theorem parseU64_ser {n : Nat} (h : n < U64MOD) (rest : List Nat) :
    parseU64 (serU64 n ++ rest) = some (n, rest) := by
  simp only [serU64, List.cons_append, List.nil_append, parseU64,
    Option.some.injEq, Prod.mk.injEq]
  constructor
  · unfold U64MOD at h; omega
  · trivial

theorem parseU64_sound {data : List Nat} {v : Nat} {rest : List Nat}
    (h : parseU64 data = some (v, rest)) (hb : isBytes data) :
    data = serU64 v ++ rest ∧ v < U64MOD := by
  unfold parseU64 at h
  split at h
  · rename_i b0 b1 b2 b3 b4 b5 b6 b7 r
    simp only [Option.some.injEq, Prod.mk.injEq] at h
    obtain ⟨hv, hr⟩ := h
    subst hr
    simp only [isBytes_cons] at hb
    obtain ⟨h0, h1, h2, h3, h4, h5, h6, h7, _⟩ := hb
    subst hv
    refine ⟨?_, by unfold U64MOD; omega⟩
    simp only [serU64, List.cons_append, List.nil_append, List.cons.injEq,
      and_true]
    omega
  · simp at h

theorem optKeyLen_none : optKeyLen none := by
  intro k hk; cases hk

theorem optKeyLen_some {k : Pubkey} (h : k.length = 32) :
    optKeyLen (some k) := by
  intro k' hk'; cases hk'; exact h

theorem parseOptKey_ser {o : Option Pubkey} (h : optKeyLen o)
    (rest : List Nat) : parseOptKey (serOptKey o ++ rest) = some (o, rest) := by
  cases o with
  | none => rfl
  | some k =>
    have hk := h k rfl
    simp [serOptKey, parseOptKey, parseBytes_complete hk rest]

theorem parseOptKey_sound {data : List Nat} {o : Option Pubkey}
    {rest : List Nat} (h : parseOptKey data = some (o, rest)) :
    data = serOptKey o ++ rest ∧ optKeyLen o := by
  unfold parseOptKey at h
  split at h
  · simp only [Option.some.injEq, Prod.mk.injEq] at h
    obtain ⟨ho, hr⟩ := h
    subst ho; subst hr
    exact ⟨rfl, optKeyLen_none⟩
  · rename_i r
    simp only [Option.map_eq_some'] at h
    obtain ⟨⟨k, r'⟩, hpb, hkr⟩ := h
    simp only [Prod.mk.injEq] at hkr
    obtain ⟨ho, hr⟩ := hkr
    subst ho; subst hr
    obtain ⟨hreq, hklen⟩ := parseBytes_sound hpb
    subst hreq
    exact ⟨rfl, optKeyLen_some hklen⟩
  · simp at h

/-! ### Record codec lemmas -/

theorem serBool_length (b : Bool) : (serBool b).length = 1 := by
  cases b <;> rfl

theorem serU64_length (n : Nat) : (serU64 n).length = 8 := rfl

theorem serOptKey_some_length {k : Pubkey} (h : k.length = 32) :
    (serOptKey (some k)).length = 33 := by
  simp [serOptKey, h]

theorem mintSer_length_some {m : Mint} {a f : Pubkey}
    (ha : m.mint_authority = some a) (hf : m.freeze_authority = some f)
    (hal : a.length = 32) (hfl : f.length = 32) :
    (mintSer m).length = 76 := by
  simp [mintSer, ha, hf, List.length_append, serBool_length, serU64_length,
    serOptKey_some_length hal, serOptKey_some_length hfl]

theorem mintSer_length_auth_none {m : Mint} (ha : m.mint_authority = none)
    (hf : optKeyLen m.freeze_authority) : (mintSer m).length < 76 := by
  cases hfa : m.freeze_authority with
  | none =>
    simp [mintSer, ha, hfa, List.length_append, serBool_length,
      serU64_length, serOptKey]
  | some f =>
    have hfl := hf f hfa
    simp [mintSer, ha, hfa, List.length_append, serBool_length,
      serU64_length, serOptKey, hfl]

theorem taSer_length {t : TokenAccount} (h1 : t.mint.length = 32)
    (h2 : t.owner.length = 32) : (taSer t).length = 74 := by
  simp [taSer, List.length_append, serBool_length, serU64_length, h1, h2]

theorem mintParse_ser {m : Mint} (h1 : m.supply < U64MOD)
    (h2 : optKeyLen m.mint_authority) (h3 : optKeyLen m.freeze_authority)
    (rest : List Nat) : mintParse (mintSer m ++ rest) = some (m, rest) := by
  simp only [mintSer, List.append_assoc, List.cons_append, List.nil_append,
    mintParse, parseBool_ser, parseU8_cons, parseOptKey_ser h2,
    parseU64_ser h1, parseOptKey_ser h3]

theorem taParse_ser {t : TokenAccount} (h1 : t.amount < U64MOD)
    (h2 : t.mint.length = 32) (h3 : t.owner.length = 32)
    (rest : List Nat) : taParse (taSer t ++ rest) = some (t, rest) := by
  simp only [taSer, List.append_assoc, List.cons_append, List.nil_append,
    taParse, parseBool_ser, parseBytes_complete h2, parseBytes_complete h3,
    parseU64_ser h1]

theorem mintParse_sound {data : List Nat} {m : Mint} {rest : List Nat}
    (h : mintParse data = some (m, rest)) :
    optKeyLen m.mint_authority ∧ optKeyLen m.freeze_authority ∧
      (isBytes data → data = mintSer m ++ rest ∧ m.supply < U64MOD) := by
  unfold mintParse at h
  split at h
  · simp at h
  · rename_i ini r1 hb
    split at h
    · simp at h
    · rename_i d r2 h8
      split at h
      · simp at h
      · rename_i ma r3 hok
        split at h
        · simp at h
        · rename_i s r4 h64
          split at h
          · simp at h
          · rename_i fa r5 hok2
            simp only [Option.some.injEq, Prod.mk.injEq] at h
            obtain ⟨hm, hr⟩ := h
            subst hm; subst hr
            have e1 := parseBool_sound hb
            have e2 := parseU8_sound h8
            have e3 := parseOptKey_sound hok
            have e4 := parseOptKey_sound hok2
            refine ⟨e3.2, e4.2, ?_⟩
            intro hby
            subst e1
            rw [e2] at hby ⊢
            rw [e3.1] at hby ⊢
            have hbr3 : isBytes r3 := by
              have := (isBytes_append.mp hby).2
              have := (isBytes_cons.mp this).2
              exact (isBytes_append.mp this).2
            have e5 := parseU64_sound h64 hbr3
            refine ⟨?_, e5.2⟩
            rw [e5.1, e4.1]
            simp [mintSer, List.append_assoc]


theorem taParse_sound {data : List Nat} {t : TokenAccount} {rest : List Nat}
    (h : taParse data = some (t, rest)) :
    t.mint.length = 32 ∧ t.owner.length = 32 ∧
      (isBytes data → data = taSer t ++ rest ∧ t.amount < U64MOD) := by
  unfold taParse at h
  split at h
  · simp at h
  · rename_i ini r1 hb
    split at h
    · simp at h
    · rename_i mi r2 hmi
      split at h
      · simp at h
      · rename_i ow r3 how
        split at h
        · simp at h
        · rename_i am r4 h64
          split at h
          · simp at h
          · rename_i fr r5 hfr
            simp only [Option.some.injEq, Prod.mk.injEq] at h
            obtain ⟨ht, hr⟩ := h
            subst ht; subst hr
            have e1 := parseBool_sound hb
            have e2 := parseBytes_sound hmi
            have e3 := parseBytes_sound how
            have e5 := parseBool_sound hfr
            refine ⟨e2.2, e3.2, ?_⟩
            intro hby
            subst e1
            rw [e2.1] at hby ⊢
            rw [e3.1] at hby ⊢
            have hbr3 : isBytes r3 := by
              have := (isBytes_append.mp hby).2
              have := (isBytes_append.mp this).2
              exact (isBytes_append.mp this).2
            have e4 := parseU64_sound h64 hbr3
            refine ⟨?_, e4.2⟩
            rw [e4.1, e5]
            simp [taSer, List.append_assoc]

/-- Decoding the exact 76-byte serialization of a well-formed `Mint` whose
authorities are both present recovers the value. -/
theorem mintDeserialize_ser {m : Mint} {a f : Pubkey}
    (h1 : m.supply < U64MOD) (ha : m.mint_authority = some a)
    (hf : m.freeze_authority = some f) (hal : a.length = 32)
    (hfl : f.length = 32) : Mint.deserialize (mintSer m) = .ok m := by
  have hlen : (mintSer m).length = 76 := mintSer_length_some ha hf hal hfl
  have h2 : optKeyLen m.mint_authority := by
    intro k hk; rw [ha] at hk; cases hk; exact hal
  have h3 : optKeyLen m.freeze_authority := by
    intro k hk; rw [hf] at hk; cases hk; exact hfl
  have hparse := mintParse_ser h1 h2 h3 []
  rw [List.append_nil] at hparse
  unfold Mint.deserialize
  rw [hlen]
  have htake : (mintSer m).take 76 = mintSer m := by
    rw [← hlen]; exact List.take_length _
  simp [htake, hparse]

theorem taDeserialize_ser {t : TokenAccount}
    (h1 : t.amount < U64MOD) (h2 : t.mint.length = 32)
    (h3 : t.owner.length = 32) : TokenAccount.deserialize (taSer t) = .ok t := by
  have hlen : (taSer t).length = 74 := taSer_length h2 h3
  have hparse := taParse_ser h1 h2 h3 []
  rw [List.append_nil] at hparse
  unfold TokenAccount.deserialize
  rw [hlen]
  have htake : (taSer t).take 74 = taSer t := by
    rw [← hlen]; exact List.take_length _
  simp [htake, hparse]

/-- A serialized `Mint` shorter than 76 bytes (an absent authority) sitting
at the front of a buffer of at least 76 bytes fails to decode, because
`try_from_slice` sees unconsumed trailing bytes. -/
theorem mintDeserialize_trailing {m : Mint} {tail : List Nat}
    (h1 : m.supply < U64MOD) (h2 : optKeyLen m.mint_authority)
    (h3 : optKeyLen m.freeze_authority) (hlt : (mintSer m).length < 76)
    (hlen : 76 ≤ (mintSer m ++ tail).length) :
    Mint.deserialize (mintSer m ++ tail) = .error .invalidAccountData := by
  unfold Mint.deserialize
  rw [if_neg (by omega)]
  have htake : (mintSer m ++ tail).take 76
      = mintSer m ++ tail.take (76 - (mintSer m).length) := by
    rw [List.take_append_eq_append_take]
    congr 1
    exact List.take_of_length_le (by omega)
  rw [htake, mintParse_ser h1 h2 h3]
  have htail : tail.take (76 - (mintSer m).length) ≠ [] := by
    rw [List.length_append] at hlen
    intro hnil
    have hc := congrArg List.length hnil
    rw [List.length_take] at hc
    simp only [List.length_nil] at hc
    omega
  cases hcase : tail.take (76 - (mintSer m).length) with
  | nil => exact absurd hcase htail
  | cons x xs => rfl

theorem writeInto_ok {ser data : List Nat} (h : ser.length ≤ data.length) :
    writeInto ser data = .ok (ser ++ data.drop ser.length) := by
  simp [writeInto, h]

theorem writeInto_exact {ser data : List Nat} (h : ser.length = data.length) :
    writeInto ser data = .ok ser := by
  rw [writeInto_ok (le_of_eq h), List.drop_of_length_le (le_of_eq h.symm),
    List.append_nil]

theorem mintOf_eq_some {buf : List Nat} {m : Mint} :
    mintOf buf = some m ↔ Mint.deserialize buf = .ok m := by
  unfold mintOf
  cases h : Mint.deserialize buf <;> simp

theorem taOf_eq_some {buf : List Nat} {t : TokenAccount} :
    taOf buf = some t ↔ TokenAccount.deserialize buf = .ok t := by
  unfold taOf
  cases h : TokenAccount.deserialize buf <;> simp

/-- Structural facts recovered from a successful `Mint` decode. -/
theorem mintOf_struct {buf : List Nat} {m : Mint} (h : mintOf buf = some m) :
    76 ≤ buf.length ∧ optKeyLen m.mint_authority ∧
      optKeyLen m.freeze_authority ∧ (isBytes buf → m.supply < U64MOD) := by
  rw [mintOf_eq_some] at h
  unfold Mint.deserialize at h
  split at h
  · simp at h
  · rename_i hlen
    split at h
    · rename_i x m' hm
      simp only [Except.ok.injEq] at h
      subst h
      obtain ⟨hka, hkf, hcan⟩ := mintParse_sound hm
      refine ⟨by omega, hka, hkf, fun hby => (hcan (isBytes_take hby 76)).2⟩
    · simp at h

theorem taOf_struct {buf : List Nat} {t : TokenAccount}
    (h : taOf buf = some t) :
    74 ≤ buf.length ∧ t.mint.length = 32 ∧ t.owner.length = 32 ∧
      (isBytes buf → t.amount < U64MOD) := by
  rw [taOf_eq_some] at h
  unfold TokenAccount.deserialize at h
  split at h
  · simp at h
  · rename_i hlen
    split at h
    · rename_i x t' ht
      simp only [Except.ok.injEq] at h
      subst h
      obtain ⟨hm, ho, hcan⟩ := taParse_sound ht
      refine ⟨by omega, hm, ho, fun hby => (hcan (isBytes_take hby 74)).2⟩
    · simp at h

/-! ### List-sum helpers for the conservation law -/

theorem sum_map_set {α : Type} (f : α → Nat) :
    ∀ {l : List α} {i : Nat} {b : α} (x : α), l.get? i = some b →
      ((l.set i x).map f).sum + f b = (l.map f).sum + f x := by
  intro l
  induction l with
  | nil => intro i b x h; simp at h
  | cons hd tl ih =>
    intro i b x h
    cases i with
    | zero =>
      simp only [List.get?_cons_zero, Option.some.injEq] at h
      subst h
      simp only [List.set_cons_zero, List.map_cons, List.sum_cons]
      omega
    | succ n =>
      simp only [List.get?_cons_succ] at h
      simp only [List.set_cons_succ, List.map_cons, List.sum_cons]
      have := ih x h
      omega

theorem get_le_sum_map {α : Type} (f : α → Nat) :
    ∀ {l : List α} {i : Nat} {b : α}, l.get? i = some b →
      f b ≤ (l.map f).sum := by
  intro l
  induction l with
  | nil => intro i b h; simp at h
  | cons hd tl ih =>
    intro i b h
    cases i with
    | zero =>
      simp only [List.get?_cons_zero, Option.some.injEq] at h
      subst h
      simp only [List.map_cons, List.sum_cons]
      omega
    | succ n =>
      simp only [List.get?_cons_succ] at h
      simp only [List.map_cons, List.sum_cons]
      have := ih h
      omega

/-! ### Healthy-state extraction lemmas -/

theorem mintGoodb_elim {buf : List Nat} (hg : mintGoodb buf = true) :
    buf.length = 76 ∧ ∃ m a f, mintOf buf = some m ∧ m.supply < U64MOD ∧
      m.mint_authority = some a ∧ m.freeze_authority = some f := by
  unfold mintGoodb at hg
  cases h : mintOf buf with
  | none => rw [h] at hg; simp at hg
  | some m =>
    rw [h] at hg
    simp only [Bool.and_eq_true, beq_iff_eq, decide_eq_true_eq] at hg
    obtain ⟨hl, ⟨hs, hia⟩, hif⟩ := hg
    cases ha : m.mint_authority with
    | none => rw [ha] at hia; simp at hia
    | some a =>
      cases hf : m.freeze_authority with
      | none => rw [hf] at hif; simp at hif
      | some f => exact ⟨hl, m, a, f, rfl, hs, ha, hf⟩

theorem mintGoodb_intro {buf : List Nat} {m : Mint} {a f : Pubkey}
    (h : mintOf buf = some m) (h76 : buf.length = 76)
    (hs : m.supply < U64MOD) (ha : m.mint_authority = some a)
    (hf : m.freeze_authority = some f) : mintGoodb buf = true := by
  unfold mintGoodb
  rw [h]
  simp [h76, hs, ha, hf]

theorem accGoodb_elim {buf : List Nat} (hg : accGoodb buf = true) :
    buf.length = 74 ∧ ∃ ta, taOf buf = some ta ∧ ta.amount < U64MOD := by
  unfold accGoodb at hg
  cases h : taOf buf with
  | none => rw [h] at hg; simp at hg
  | some ta =>
    rw [h] at hg
    simp only [Bool.and_eq_true, beq_iff_eq, decide_eq_true_eq] at hg
    exact ⟨hg.1, ta, rfl, hg.2⟩

theorem accGoodb_intro {buf : List Nat} {ta : TokenAccount}
    (h : taOf buf = some ta) (h74 : buf.length = 74)
    (hs : ta.amount < U64MOD) : accGoodb buf = true := by
  unfold accGoodb
  rw [h]
  simp [h74, hs]

theorem invB_spec {s : LedgerState} :
    invB s = true ↔
      mintGoodb s.mintBuf = true ∧ (∀ buf ∈ s.accounts, accGoodb buf = true) ∧
        supplyOf s = sumAmounts s := by
  unfold invB
  simp [List.all_eq_true, Bool.and_eq_true, beq_iff_eq]
  tauto

/-! ### Wrapping arithmetic helpers -/

theorem U64MOD_pos : 0 < U64MOD := by unfold U64MOD; omega

theorem wadd_lt (x a : Nat) : wadd x a < U64MOD :=
  Nat.mod_lt _ U64MOD_pos

theorem wsub_lt (x a : Nat) : wsub x a < U64MOD :=
  Nat.mod_lt _ U64MOD_pos

theorem wadd_eq_add {x a : Nat} (h : x + a < U64MOD) : wadd x a = x + a :=
  Nat.mod_eq_of_lt h

theorem wsub_eq_sub {x a : Nat} (h1 : a ≤ x) (h2 : x < U64MOD) :
    wsub x a = x - a := by
  unfold wsub U64MOD at *
  omega

/-! ### Behaviour of the handlers on healthy buffers -/

/-- A successful `process_mint_to`: correctly signed by the mint authority,
on a decodable 76-byte mint buffer (both authorities present) and a
decodable 74-byte token-account buffer. -/
theorem processMintTo_success {mintData tokenData : List Nat} {m : Mint}
    {am fm : Pubkey} {ta : TokenAccount} (a : Nat)
    (hm : mintOf mintData = some m) (h76 : mintData.length = 76)
    (hma : m.mint_authority = some am) (hmf : m.freeze_authority = some fm)
    (hta : taOf tokenData = some ta) (h74 : tokenData.length = 74) :
    processMintTo mintData tokenData am true a =
      ((mintSer { m with supply := wadd m.supply a },
        taSer { ta with amount := wadd ta.amount a }), none) := by
  obtain ⟨_, hka, hkf, _⟩ := mintOf_struct hm
  obtain ⟨_, hmi, how, _⟩ := taOf_struct hta
  have hal : am.length = 32 := hka am hma
  have hfl : fm.length = 32 := hkf fm hmf
  have hserlen : (mintSer { m with supply := wadd m.supply a }).length = 76 :=
    mintSer_length_some (m := { m with supply := wadd m.supply a }) hma hmf hal hfl
  have htlen : (taSer { ta with amount := wadd ta.amount a }).length = 74 :=
    taSer_length (t := { ta with amount := wadd ta.amount a }) hmi how
  have hser1 : Mint.serialize { m with supply := wadd m.supply a } mintData
      = .ok (mintSer { m with supply := wadd m.supply a }) := by
    unfold Mint.serialize
    exact writeInto_exact (by rw [hserlen, h76])
  have hser2 : TokenAccount.serialize { ta with amount := wadd ta.amount a }
      tokenData = .ok (taSer { ta with amount := wadd ta.amount a }) := by
    unfold TokenAccount.serialize
    exact writeInto_exact (by rw [htlen, h74])
  simp only [hma] at hser1
  unfold processMintTo
  rw [if_neg (by omega)]
  simp [mintOf_eq_some.mp hm, hma, taOf_eq_some.mp hta, hser1, hser2]

theorem processMintTo_noSigner {mintData : List Nat} {m : Mint}
    (tokenData : List Nat) (k : Pubkey) (a : Nat)
    (hm : mintOf mintData = some m) :
    processMintTo mintData tokenData k false a
      = ((mintData, tokenData), some (.custom .Unauthorized)) := by
  have h76 := (mintOf_struct hm).1
  unfold processMintTo
  rw [if_neg (by omega)]
  simp [mintOf_eq_some.mp hm]

theorem processMintTo_wrongKey {mintData : List Nat} {m : Mint}
    {am : Pubkey} (tokenData : List Nat) (k : Pubkey) (a : Nat)
    (hm : mintOf mintData = some m)
    (hma : m.mint_authority = some am) (hne : am ≠ k) :
    processMintTo mintData tokenData k true a
      = ((mintData, tokenData), some (.custom .Unauthorized)) := by
  have h76 := (mintOf_struct hm).1
  unfold processMintTo
  rw [if_neg (by omega)]
  simp [mintOf_eq_some.mp hm, hma, hne]

theorem processMintTo_decodeErr {mintData : List Nat} {e : ProgErr}
    (tokenData : List Nat) (k : Pubkey) (sg : Bool) (a : Nat)
    (h44 : ¬ mintData.length < 44)
    (h : Mint.deserialize mintData = .error e) :
    processMintTo mintData tokenData k sg a = ((mintData, tokenData), some e) := by
  unfold processMintTo
  rw [if_neg h44]
  simp [h]

theorem processTransfer_noSigner (sourceData destData : List Nat)
    (k : Pubkey) (a : Nat) :
    processTransfer sourceData destData k false a
      = ((sourceData, destData), some (.custom .Unauthorized)) := by
  unfold processTransfer
  simp

theorem processTransfer_wrongOwner {sourceData : List Nat}
    {src : TokenAccount} {k : Pubkey} (destData : List Nat) (a : Nat)
    (hs : taOf sourceData = some src) (hne : src.owner ≠ k) :
    processTransfer sourceData destData k true a
      = ((sourceData, destData), some (.custom .Unauthorized)) := by
  unfold processTransfer
  simp [taOf_eq_some.mp hs, hne]

theorem processTransfer_insufficient {sourceData : List Nat}
    {src : TokenAccount} {k : Pubkey} {a : Nat} (destData : List Nat)
    (hs : taOf sourceData = some src) (ho : src.owner = k)
    (hlt : src.amount < a) :
    processTransfer sourceData destData k true a
      = ((sourceData, destData), some (.custom .InsufficientFunds)) := by
  unfold processTransfer
  simp [taOf_eq_some.mp hs, ho, hlt]

theorem processTransfer_success {sourceData destData : List Nat}
    {src dst : TokenAccount} {k : Pubkey} {a : Nat}
    (hs : taOf sourceData = some src) (h74s : sourceData.length = 74)
    (ho : src.owner = k) (hamt : ¬ src.amount < a)
    (hd : taOf destData = some dst) (h74d : destData.length = 74) :
    processTransfer sourceData destData k true a =
      ((taSer { src with amount := wsub src.amount a },
        taSer { dst with amount := wadd dst.amount a }), none) := by
  obtain ⟨_, hmi, how, _⟩ := taOf_struct hs
  obtain ⟨_, hmi2, how2, _⟩ := taOf_struct hd
  have hser1 : TokenAccount.serialize { src with amount := wsub src.amount a }
      sourceData = .ok (taSer { src with amount := wsub src.amount a }) := by
    unfold TokenAccount.serialize
    exact writeInto_exact (by
      rw [taSer_length (t := { src with amount := wsub src.amount a }) hmi how,
        h74s])
  have hser2 : TokenAccount.serialize { dst with amount := wadd dst.amount a }
      destData = .ok (taSer { dst with amount := wadd dst.amount a }) := by
    unfold TokenAccount.serialize
    exact writeInto_exact (by
      rw [taSer_length (t := { dst with amount := wadd dst.amount a }) hmi2 how2,
        h74d])
  simp only [ho] at hser1
  unfold processTransfer
  simp [taOf_eq_some.mp hs, taOf_eq_some.mp hd, ho, hamt, hser1, hser2]

theorem processBurn_noSigner (tokenData mintData : List Nat)
    (k : Pubkey) (a : Nat) :
    processBurn tokenData mintData k false a
      = ((tokenData, mintData), some (.custom .Unauthorized)) := by
  unfold processBurn
  simp

theorem processBurn_wrongOwner {tokenData : List Nat}
    {ta : TokenAccount} {k : Pubkey} (mintData : List Nat) (a : Nat)
    (ht : taOf tokenData = some ta) (hne : ta.owner ≠ k) :
    processBurn tokenData mintData k true a
      = ((tokenData, mintData), some (.custom .Unauthorized)) := by
  unfold processBurn
  simp [taOf_eq_some.mp ht, hne]

theorem processBurn_insufficient {tokenData : List Nat}
    {ta : TokenAccount} {k : Pubkey} {a : Nat} (mintData : List Nat)
    (ht : taOf tokenData = some ta) (ho : ta.owner = k)
    (hlt : ta.amount < a) :
    processBurn tokenData mintData k true a
      = ((tokenData, mintData), some (.custom .InsufficientFunds)) := by
  unfold processBurn
  simp [taOf_eq_some.mp ht, ho, hlt]

theorem processBurn_success {tokenData mintData : List Nat}
    {ta : TokenAccount} {m : Mint} {k am fm : Pubkey} {a : Nat}
    (ht : taOf tokenData = some ta) (h74 : tokenData.length = 74)
    (ho : ta.owner = k) (hamt : ¬ ta.amount < a)
    (hm : mintOf mintData = some m) (h76 : mintData.length = 76)
    (hma : m.mint_authority = some am) (hmf : m.freeze_authority = some fm) :
    processBurn tokenData mintData k true a =
      ((taSer { ta with amount := wsub ta.amount a },
        mintSer { m with supply := wsub m.supply a }), none) := by
  obtain ⟨_, hmi, how, _⟩ := taOf_struct ht
  obtain ⟨_, hka, hkf, _⟩ := mintOf_struct hm
  have hal : am.length = 32 := hka am hma
  have hfl : fm.length = 32 := hkf fm hmf
  have hser1 : TokenAccount.serialize { ta with amount := wsub ta.amount a }
      tokenData = .ok (taSer { ta with amount := wsub ta.amount a }) := by
    unfold TokenAccount.serialize
    exact writeInto_exact (by
      rw [taSer_length (t := { ta with amount := wsub ta.amount a }) hmi how,
        h74])
  have hser2 : Mint.serialize { m with supply := wsub m.supply a } mintData
      = .ok (mintSer { m with supply := wsub m.supply a }) := by
    unfold Mint.serialize
    exact writeInto_exact (by
      rw [mintSer_length_some (m := { m with supply := wsub m.supply a })
        hma hmf hal hfl, h76])
  simp only [ho] at hser1
  unfold processBurn
  simp [taOf_eq_some.mp ht, mintOf_eq_some.mp hm, ho, hamt, hser1, hser2]

theorem processSetAuth_success {mintData : List Nat} {m : Mint} {am : Pubkey}
    (na : Option Pubkey) (hm : mintOf mintData = some m)
    (hma : m.mint_authority = some am)
    (hlen : (mintSer { m with mint_authority := na }).length ≤ mintData.length) :
    processSetMintAuthority mintData am true na =
      (mintSer { m with mint_authority := na }
        ++ mintData.drop (mintSer { m with mint_authority := na }).length,
       none) := by
  have hw : Mint.serialize { m with mint_authority := na } mintData
      = .ok (mintSer { m with mint_authority := na }
          ++ mintData.drop (mintSer { m with mint_authority := na }).length) := by
    unfold Mint.serialize
    exact writeInto_ok hlen
  unfold processSetMintAuthority
  simp [mintOf_eq_some.mp hm, hma, hw]

theorem processSetAuth_decodeErr {mintData : List Nat} {e : ProgErr}
    (k : Pubkey) (sg : Bool) (na : Option Pubkey)
    (h : Mint.deserialize mintData = .error e) :
    processSetMintAuthority mintData k sg na = (mintData, some e) := by
  unfold processSetMintAuthority
  simp [h]

theorem set_get_self {α : Type} :
    ∀ {l : List α} {i : Nat} {b : α}, l.get? i = some b → l.set i b = l := by
  intro l
  induction l with
  | nil => intro i b h; simp at h
  | cons hd tl ih =>
    intro i b h
    cases i with
    | zero =>
      simp only [List.get?_cons_zero, Option.some.injEq] at h
      subst h
      rfl
    | succ n =>
      simp only [List.get?_cons_succ] at h
      simp [List.set_cons_succ, ih h]

/-! ### Preservation of the consistency invariant -/

theorem invB_mintTo {s : LedgerState} {i : Nat} {k : Pubkey} {sg : Bool}
    {a : Nat} (hinv : invB s = true) (hi : i < s.accounts.length)
    (hov : supplyOf s + a < U64MOD) :
    invB (applyOp s (.mintTo i k sg a)) = true := by
  obtain ⟨hmg, hacc, hcons⟩ := invB_spec.mp hinv
  obtain ⟨h76, m, am, fm, hm, hsup, hma, hmf⟩ := mintGoodb_elim hmg
  obtain ⟨_, hka, hkf, _⟩ := mintOf_struct hm
  have hal : am.length = 32 := hka am hma
  have hfl : fm.length = 32 := hkf fm hmf
  cases hgi : s.accounts.get? i with
  | none =>
    exfalso
    rw [List.get?_eq_none] at hgi
    omega
  | some buf =>
    have hbufmem : buf ∈ s.accounts := List.get?_mem hgi
    obtain ⟨h74, ta, hta, hamt⟩ := accGoodb_elim (hacc buf hbufmem)
    obtain ⟨_, hmi, how, _⟩ := taOf_struct hta
    have hsupplyOf : supplyOf s = m.supply := by simp [supplyOf, hm]
    cases sg with
    | false =>
      have hrun := processMintTo_noSigner buf k a hm
      simp only [applyOp, hgi, hrun]
      rw [set_get_self hgi]
      exact hinv
    | true =>
      by_cases hk : am = k
      · subst hk
        have hrun := processMintTo_success a hm h76 hma hmf hta h74
        simp only [applyOp, hgi, hrun]
        have hta_le : ta.amount ≤ sumAmounts s := by
          have h1 := get_le_sum_map amtOf hgi
          simpa [amtOf, hta, sumAmounts] using h1
        have hsum_lt : ta.amount + a < U64MOD := by
          rw [hsupplyOf] at hov
          rw [hcons, hsupplyOf] at *
          omega
        have hwa : wadd m.supply a = m.supply + a :=
          wadd_eq_add (by rw [← hsupplyOf]; exact hov)
        have hwt : wadd ta.amount a = ta.amount + a := wadd_eq_add hsum_lt
        have hm' : mintOf (mintSer { m with supply := wadd m.supply a })
            = some { m with supply := wadd m.supply a } := by
          rw [mintOf_eq_some]
          exact mintDeserialize_ser (wadd_lt _ _) hma hmf hal hfl
        have hta' : taOf (taSer { ta with amount := wadd ta.amount a })
            = some { ta with amount := wadd ta.amount a } := by
          rw [taOf_eq_some]
          exact taDeserialize_ser (wadd_lt _ _) hmi how
        apply invB_spec.mpr
        refine ⟨mintGoodb_intro hm' (mintSer_length_some hma hmf hal hfl)
          (wadd_lt _ _) hma hmf, ?_, ?_⟩
        · intro buf' hmem
          rcases List.mem_or_eq_of_mem_set hmem with hold | hnew
          · exact hacc buf' hold
          · subst hnew
            exact accGoodb_intro hta' (taSer_length hmi how) (wadd_lt _ _)
        · have hsum := sum_map_set amtOf
            (x := taSer { ta with amount := wadd ta.amount a }) hgi
          have hamt1 : amtOf buf = ta.amount := by simp [amtOf, hta]
          have hamt2 : amtOf (taSer { ta with amount := wadd ta.amount a })
              = ta.amount + a := by rw [← hwt]; simp [amtOf, hta']
          rw [hamt1, hamt2] at hsum
          have h2 : (s.accounts.map amtOf).sum = m.supply := by
            have := hcons
            rw [hsupplyOf] at this
            unfold sumAmounts at this
            omega
          show supplyOf _ = sumAmounts _
          unfold supplyOf sumAmounts
          simp only [hm']
          rw [hwa]
          omega
      · have hrun := processMintTo_wrongKey buf k a hm hma hk
        simp only [applyOp, hgi, hrun]
        rw [set_get_self hgi]
        exact hinv

theorem invB_transfer {s : LedgerState} {i j : Nat} {k : Pubkey} {sg : Bool}
    {a : Nat} (hinv : invB s = true) (hi : i < s.accounts.length)
    (hj : j < s.accounts.length) (hij : i ≠ j) :
    invB (applyOp s (.transfer i j k sg a)) = true := by
  obtain ⟨hmg, hacc, hcons⟩ := invB_spec.mp hinv
  obtain ⟨h76, m, am, fm, hm, hsup, hma, hmf⟩ := mintGoodb_elim hmg
  have hsupplyOf : supplyOf s = m.supply := by simp [supplyOf, hm]
  cases hgi : s.accounts.get? i with
  | none => exfalso; rw [List.get?_eq_none] at hgi; omega
  | some bi =>
  cases hgj : s.accounts.get? j with
  | none => exfalso; rw [List.get?_eq_none] at hgj; omega
  | some bj =>
    obtain ⟨h74i, src, hsrc, hamti⟩ := accGoodb_elim (hacc bi (List.get?_mem hgi))
    obtain ⟨h74j, dst, hdst, hamtj⟩ := accGoodb_elim (hacc bj (List.get?_mem hgj))
    obtain ⟨_, hmii, howi, _⟩ := taOf_struct hsrc
    obtain ⟨_, hmij, howj, _⟩ := taOf_struct hdst
    cases sg with
    | false =>
      have hrun := processTransfer_noSigner bi bj k a
      simp only [applyOp, if_neg hij, hgi, hgj, hrun]
      rw [set_get_self hgi, set_get_self hgj]
      exact hinv
    | true =>
      by_cases howner : src.owner = k
      · by_cases hlt : src.amount < a
        · have hrun := processTransfer_insufficient bj hsrc howner hlt
          simp only [applyOp, if_neg hij, hgi, hgj, hrun]
          rw [set_get_self hgi, set_get_self hgj]
          exact hinv
        · have hrun := processTransfer_success hsrc h74i howner hlt hdst h74j
          simp only [applyOp, if_neg hij, hgi, hgj, hrun]
          have hws : wsub src.amount a = src.amount - a :=
            wsub_eq_sub (by omega) hamti
          have hsrc' : taOf (taSer { src with amount := wsub src.amount a })
              = some { src with amount := wsub src.amount a } := by
            rw [taOf_eq_some]
            exact taDeserialize_ser (wsub_lt _ _) hmii howi
          have hdst' : taOf (taSer { dst with amount := wadd dst.amount a })
              = some { dst with amount := wadd dst.amount a } := by
            rw [taOf_eq_some]
            exact taDeserialize_ser (wadd_lt _ _) hmij howj
          have hamt1 : amtOf bi = src.amount := by simp [amtOf, hsrc]
          have hamt2 : amtOf (taSer { src with amount := wsub src.amount a })
              = src.amount - a := by rw [← hws]; simp [amtOf, hsrc']
          have hamt3 : amtOf bj = dst.amount := by simp [amtOf, hdst]
          have hsrc_le : src.amount ≤ (s.accounts.map amtOf).sum := by
            have h1 := get_le_sum_map amtOf hgi
            rwa [hamt1] at h1
          have hsum1 := sum_map_set amtOf
            (x := taSer { src with amount := wsub src.amount a }) hgi
          rw [hamt1, hamt2] at hsum1
          have hgj1 : (s.accounts.set i
              (taSer { src with amount := wsub src.amount a })).get? j
              = some bj := by
            rw [List.get?_set_ne _ _ hij]
            exact hgj
          have hdst_le : dst.amount ≤ ((s.accounts.set i
              (taSer { src with amount := wsub src.amount a })).map amtOf).sum := by
            have h1 := get_le_sum_map amtOf hgj1
            rwa [hamt3] at h1
          have hcons' : (s.accounts.map amtOf).sum = m.supply := by
            have := hcons
            rw [hsupplyOf] at this
            unfold sumAmounts at this
            omega
          have hdlt : dst.amount + a < U64MOD := by omega
          have hwd : wadd dst.amount a = dst.amount + a := wadd_eq_add hdlt
          have hamt4 : amtOf (taSer { dst with amount := wadd dst.amount a })
              = dst.amount + a := by rw [← hwd]; simp [amtOf, hdst']
          have hsum2 := sum_map_set amtOf
            (x := taSer { dst with amount := wadd dst.amount a }) hgj1
          rw [hamt3, hamt4] at hsum2
          apply invB_spec.mpr
          refine ⟨hmg, ?_, ?_⟩
          · intro buf' hmem
            rcases List.mem_or_eq_of_mem_set hmem with hmem1 | hnew
            · rcases List.mem_or_eq_of_mem_set hmem1 with hold | hnew1
              · exact hacc buf' hold
              · subst hnew1
                exact accGoodb_intro hsrc' (taSer_length hmii howi) (wsub_lt _ _)
            · subst hnew
              exact accGoodb_intro hdst' (taSer_length hmij howj) (wadd_lt _ _)
          · show supplyOf _ = sumAmounts _
            unfold supplyOf sumAmounts
            simp only [hm]
            omega
      · have hrun := processTransfer_wrongOwner bj a hsrc howner
        simp only [applyOp, if_neg hij, hgi, hgj, hrun]
        rw [set_get_self hgi, set_get_self hgj]
        exact hinv

theorem invB_burn {s : LedgerState} {i : Nat} {k : Pubkey} {sg : Bool}
    {a : Nat} (hinv : invB s = true) (hi : i < s.accounts.length) :
    invB (applyOp s (.burn i k sg a)) = true := by
  obtain ⟨hmg, hacc, hcons⟩ := invB_spec.mp hinv
  obtain ⟨h76, m, am, fm, hm, hsup, hma, hmf⟩ := mintGoodb_elim hmg
  obtain ⟨_, hka, hkf, _⟩ := mintOf_struct hm
  have hal : am.length = 32 := hka am hma
  have hfl : fm.length = 32 := hkf fm hmf
  have hsupplyOf : supplyOf s = m.supply := by simp [supplyOf, hm]
  cases hgi : s.accounts.get? i with
  | none => exfalso; rw [List.get?_eq_none] at hgi; omega
  | some buf =>
    obtain ⟨h74, ta, hta, hamt⟩ := accGoodb_elim (hacc buf (List.get?_mem hgi))
    obtain ⟨_, hmi, how, _⟩ := taOf_struct hta
    cases sg with
    | false =>
      have hrun := processBurn_noSigner buf s.mintBuf k a
      simp only [applyOp, hgi, hrun]
      rw [set_get_self hgi]
      exact hinv
    | true =>
      by_cases howner : ta.owner = k
      · by_cases hlt : ta.amount < a
        · have hrun := processBurn_insufficient s.mintBuf hta howner hlt
          simp only [applyOp, hgi, hrun]
          rw [set_get_self hgi]
          exact hinv
        · have hrun := processBurn_success hta h74 howner hlt hm h76 hma hmf
          simp only [applyOp, hgi, hrun]
          have hta_le : ta.amount ≤ (s.accounts.map amtOf).sum := by
            have h1 := get_le_sum_map amtOf hgi
            simpa [amtOf, hta] using h1
          have hcons' : (s.accounts.map amtOf).sum = m.supply := by
            have := hcons
            rw [hsupplyOf] at this
            unfold sumAmounts at this
            omega
          have hwt : wsub ta.amount a = ta.amount - a :=
            wsub_eq_sub (by omega) hamt
          have hwm : wsub m.supply a = m.supply - a :=
            wsub_eq_sub (by omega) hsup
          have hm' : mintOf (mintSer { m with supply := wsub m.supply a })
              = some { m with supply := wsub m.supply a } := by
            rw [mintOf_eq_some]
            exact mintDeserialize_ser (wsub_lt _ _) hma hmf hal hfl
          have hta' : taOf (taSer { ta with amount := wsub ta.amount a })
              = some { ta with amount := wsub ta.amount a } := by
            rw [taOf_eq_some]
            exact taDeserialize_ser (wsub_lt _ _) hmi how
          have hamt1 : amtOf buf = ta.amount := by simp [amtOf, hta]
          have hamt2 : amtOf (taSer { ta with amount := wsub ta.amount a })
              = ta.amount - a := by rw [← hwt]; simp [amtOf, hta']
          have hsum := sum_map_set amtOf
            (x := taSer { ta with amount := wsub ta.amount a }) hgi
          rw [hamt1, hamt2] at hsum
          apply invB_spec.mpr
          refine ⟨mintGoodb_intro hm' (mintSer_length_some hma hmf hal hfl)
            (wsub_lt _ _) hma hmf, ?_, ?_⟩
          · intro buf' hmem
            rcases List.mem_or_eq_of_mem_set hmem with hold | hnew
            · exact hacc buf' hold
            · subst hnew
              exact accGoodb_intro hta' (taSer_length hmi how) (wsub_lt _ _)
          · show supplyOf _ = sumAmounts _
            unfold supplyOf sumAmounts
            simp only [hm']
            rw [hwm]
            omega
      · have hrun := processBurn_wrongOwner s.mintBuf a hta howner
        simp only [applyOp, hgi, hrun]
        rw [set_get_self hgi]
        exact hinv

/-- Any admitted operation preserves the consistency invariant. -/
theorem invB_applyOp {s : LedgerState} {op : Op} (hinv : invB s = true)
    (hok : opOkb s op = true) : invB (applyOp s op) = true := by
  cases op with
  | mintTo i k sg a =>
    simp only [opOkb, Bool.and_eq_true, decide_eq_true_eq] at hok
    exact invB_mintTo hinv hok.1 hok.2
  | transfer i j k sg a =>
    simp only [opOkb, Bool.and_eq_true, decide_eq_true_eq,
      Bool.not_eq_true', beq_eq_false_iff_ne, ne_eq] at hok
    exact invB_transfer hinv hok.1.1 hok.1.2 hok.2
  | burn i k sg a =>
    simp only [opOkb, decide_eq_true_eq] at hok
    exact invB_burn hinv hok

/-- Every prefix of an admitted operation sequence preserves the invariant. -/
theorem invB_applyOps_take :
    ∀ {ops : List Op} {s : LedgerState} (n : Nat), invB s = true →
      opsOkb s ops = true → invB (applyOps s (ops.take n)) = true := by
  intro ops
  induction ops with
  | nil =>
    intro s n h _
    simpa [applyOps] using h
  | cons op rest ih =>
    intro s n h hok
    simp only [opsOkb, Bool.and_eq_true] at hok
    cases n with
    | zero => simpa [applyOps] using h
    | succ n' =>
      simp only [List.take_succ_cons, applyOps, List.foldl_cons]
      exact ih n' (invB_applyOp h hok.1) hok.2

/-! ### Instruction codec lemmas -/

theorem instrParse_ser {i : TokenInstruction} (hv : instrValid i)
    (rest : List Nat) : instrParse (instrSer i ++ rest) = some (i, rest) := by
  cases i with
  | InitializeMint d a f =>
    obtain ⟨hd, ha, hf⟩ := hv
    simp [instrSer, instrParse, List.cons_append, List.append_assoc,
      parseU8_cons, parseBytes_complete ha, parseOptKey_ser hf]
  | InitializeAccount =>
    simp [instrSer, instrParse]
  | MintTo a =>
    simp [instrSer, instrParse, List.cons_append, parseU64_ser hv]
  | Transfer a =>
    simp [instrSer, instrParse, List.cons_append, parseU64_ser hv]
  | Burn a =>
    simp [instrSer, instrParse, List.cons_append, parseU64_ser hv]
  | SetMintAuthority na =>
    simp [instrSer, instrParse, List.cons_append, parseOptKey_ser hv]

theorem instrParse_sound {data : List Nat} {i : TokenInstruction}
    {rest : List Nat} (hb : isBytes data)
    (h : instrParse data = some (i, rest)) :
    data = instrSer i ++ rest ∧ instrValid i := by
  cases data with
  | nil => simp [instrParse] at h
  | cons t r =>
    simp only [instrParse] at h
    obtain ⟨ht, hbr⟩ := isBytes_cons.mp hb
    by_cases h0 : t = 0
    · subst h0
      rw [if_pos rfl] at h
      cases hu8 : parseU8 r with
      | none => rw [hu8] at h; simp at h
      | some p1 =>
        obtain ⟨d, r1⟩ := p1
        rw [hu8] at h
        dsimp only at h
        cases hpb : parseBytes 32 r1 with
        | none => rw [hpb] at h; simp at h
        | some p2 =>
          obtain ⟨a, r2⟩ := p2
          rw [hpb] at h
          dsimp only at h
          cases hok : parseOptKey r2 with
          | none => rw [hok] at h; simp at h
          | some p3 =>
            obtain ⟨f, r3⟩ := p3
            rw [hok] at h
            dsimp only at h
            simp only [Option.some.injEq, Prod.mk.injEq] at h
            obtain ⟨hi, hr⟩ := h
            subst hi; subst hr
            have e1 := parseU8_sound hu8
            have e2 := parseBytes_sound hpb
            have e3 := parseOptKey_sound hok
            subst e1
            rw [e2.1] at hbr ⊢
            rw [e3.1]
            have hd : d < 256 := (isBytes_cons.mp hbr).1
            refine ⟨by simp [instrSer, List.append_assoc], hd, e2.2, e3.2⟩
    · rw [if_neg h0] at h
      by_cases h1 : t = 1
      · subst h1
        rw [if_pos rfl] at h
        simp only [Option.some.injEq, Prod.mk.injEq] at h
        obtain ⟨hi, hr⟩ := h
        subst hi; subst hr
        exact ⟨rfl, trivial⟩
      · rw [if_neg h1] at h
        by_cases h2 : t = 2
        · subst h2
          rw [if_pos rfl] at h
          cases hu : parseU64 r with
          | none => rw [hu] at h; simp at h
          | some p =>
            obtain ⟨v, r1⟩ := p
            rw [hu] at h
            dsimp only at h
            simp only [Option.some.injEq, Prod.mk.injEq] at h
            obtain ⟨hi, hr⟩ := h
            subst hi; subst hr
            have e := parseU64_sound hu hbr
            rw [e.1]
            exact ⟨by simp [instrSer], e.2⟩
        · rw [if_neg h2] at h
          by_cases h3 : t = 3
          · subst h3
            rw [if_pos rfl] at h
            cases hu : parseU64 r with
            | none => rw [hu] at h; simp at h
            | some p =>
              obtain ⟨v, r1⟩ := p
              rw [hu] at h
              dsimp only at h
              simp only [Option.some.injEq, Prod.mk.injEq] at h
              obtain ⟨hi, hr⟩ := h
              subst hi; subst hr
              have e := parseU64_sound hu hbr
              rw [e.1]
              exact ⟨by simp [instrSer], e.2⟩
          · rw [if_neg h3] at h
            by_cases h4 : t = 4
            · subst h4
              rw [if_pos rfl] at h
              cases hu : parseU64 r with
              | none => rw [hu] at h; simp at h
              | some p =>
                obtain ⟨v, r1⟩ := p
                rw [hu] at h
                dsimp only at h
                simp only [Option.some.injEq, Prod.mk.injEq] at h
                obtain ⟨hi, hr⟩ := h
                subst hi; subst hr
                have e := parseU64_sound hu hbr
                rw [e.1]
                exact ⟨by simp [instrSer], e.2⟩
            · rw [if_neg h4] at h
              by_cases h5 : t = 5
              · subst h5
                rw [if_pos rfl] at h
                cases hok : parseOptKey r with
                | none => rw [hok] at h; simp at h
                | some p =>
                  obtain ⟨na, r1⟩ := p
                  rw [hok] at h
                  dsimp only at h
                  simp only [Option.some.injEq, Prod.mk.injEq] at h
                  obtain ⟨hi, hr⟩ := h
                  subst hi; subst hr
                  have e := parseOptKey_sound hok
                  rw [e.1]
                  exact ⟨by simp [instrSer], e.2⟩
              · rw [if_neg h5] at h
                simp at h

theorem serOptKey_prefix {o1 o2 : Option Pubkey} {extra : List Nat}
    (h1 : optKeyLen o1) (h2 : optKeyLen o2)
    (h : serOptKey o1 ++ extra = serOptKey o2) : extra = [] := by
  cases o1 with
  | none =>
    cases o2 with
    | none => simpa [serOptKey] using h
    | some k => simp [serOptKey] at h
  | some k1 =>
    cases o2 with
    | none => simp [serOptKey] at h
    | some k2 =>
      simp only [serOptKey, List.cons_append, List.cons.injEq, true_and] at h
      have hl := congrArg List.length h
      rw [List.length_append, h1 k1 rfl, h2 k2 rfl] at hl
      exact List.length_eq_zero.mp (by omega)

theorem serU64_prefix {x y : Nat} {extra : List Nat}
    (h : serU64 x ++ extra = serU64 y) : extra = [] := by
  have hl := congrArg List.length h
  rw [List.length_append, serU64_length, serU64_length] at hl
  exact List.length_eq_zero.mp (by omega)

/-- Valid instruction encodings are prefix-free: no proper extension of one
encoding is another encoding. -/
theorem instrSer_prefix {i j : TokenInstruction} {extra : List Nat}
    (hvi : instrValid i) (hvj : instrValid j)
    (h : instrSer j ++ extra = instrSer i) : extra = [] := by
  cases i <;> cases j <;>
    simp only [instrSer, List.cons_append, List.cons.injEq,
      List.append_assoc, List.nil_append] at h <;>
    try (exact absurd h.1 (by decide))
  case InitializeMint.InitializeMint d a f d' a' f' =>
    obtain ⟨-, ha, hf⟩ := hvi
    obtain ⟨-, ha', hf'⟩ := hvj
    obtain ⟨-, -, h2⟩ := h
    have hsplit := List.append_inj h2 (ha'.trans ha.symm)
    exact serOptKey_prefix hf' hf hsplit.2
  case InitializeAccount.InitializeAccount =>
    exact h.2
  case MintTo.MintTo a a' =>
    exact serU64_prefix h.2
  case Transfer.Transfer a a' =>
    exact serU64_prefix h.2
  case Burn.Burn a a' =>
    exact serU64_prefix h.2
  case SetMintAuthority.SetMintAuthority na na' =>
    exact serOptKey_prefix hvj hvi h.2

theorem instrDeserialize_ser {i : TokenInstruction} (hv : instrValid i) :
    instrDeserialize (instrSer i) = .ok i := by
  have hp := instrParse_ser hv []
  rw [List.append_nil] at hp
  unfold instrDeserialize
  rw [hp]

theorem instrDeserialize_trailing {i : TokenInstruction} {extra : List Nat}
    (hv : instrValid i) (hne : extra ≠ []) :
    instrDeserialize (instrSer i ++ extra) = .error .InvalidInstruction := by
  unfold instrDeserialize
  rw [instrParse_ser hv]
  cases extra with
  | nil => exact absurd rfl hne
  | cons x xs => rfl

theorem instrDeserialize_total (data : List Nat) :
    (∃ i, instrDeserialize data = .ok i) ∨
      instrDeserialize data = .error .InvalidInstruction := by
  unfold instrDeserialize
  cases h : instrParse data with
  | none => right; rfl
  | some p =>
    obtain ⟨i, rest⟩ := p
    cases rest with
    | nil => left; exact ⟨i, rfl⟩
    | cons x xs => right; rfl

theorem instrDeserialize_sound {data : List Nat} {i : TokenInstruction}
    (hb : isBytes data) (h : instrDeserialize data = .ok i) :
    data = instrSer i ∧ instrValid i := by
  unfold instrDeserialize at h
  cases hp : instrParse data with
  | none => rw [hp] at h; simp at h
  | some p =>
    obtain ⟨j, rest⟩ := p
    rw [hp] at h
    cases rest with
    | nil =>
      simp only [Except.ok.injEq] at h
      subst h
      have := instrParse_sound hb hp
      rw [List.append_nil] at this
      exact this
    | cons x xs => simp at h

theorem instrDeserialize_truncated {i : TokenInstruction} {n : Nat}
    (hv : instrValid i) (hb : isBytes (instrSer i))
    (hn : n < (instrSer i).length) :
    instrDeserialize ((instrSer i).take n) = .error .InvalidInstruction := by
  rcases instrDeserialize_total ((instrSer i).take n) with ⟨j, hj⟩ | herr
  · exfalso
    obtain ⟨heq, hvj⟩ := instrDeserialize_sound (isBytes_take hb n) hj
    have hsplit : instrSer j ++ (instrSer i).drop n = instrSer i := by
      rw [← heq]
      exact List.take_append_drop n _
    have hnil := instrSer_prefix hv hvj hsplit
    have hlen := congrArg List.length hnil
    rw [List.length_drop] at hlen
    simp at hlen
    omega
  · exact herr

theorem instrDeserialize_badTag {t : Nat} (rest : List Nat) (ht : 6 ≤ t) :
    instrDeserialize (t :: rest) = .error .InvalidInstruction := by
  unfold instrDeserialize
  simp only [instrParse]
  rw [if_neg (by omega), if_neg (by omega), if_neg (by omega),
    if_neg (by omega), if_neg (by omega), if_neg (by omega)]

/-! ### Error enumeration for the three multi-record handlers -/

theorem writeInto_error {ser data : List Nat} {e : ProgErr}
    (h : writeInto ser data = .error e) : e = .invalidAccountData := by
  unfold writeInto at h
  split at h <;> simp_all

theorem mintSerialize_error {m : Mint} {data : List Nat} {e : ProgErr}
    (h : Mint.serialize m data = .error e) : e = .invalidAccountData :=
  writeInto_error h

theorem taSerialize_error {t : TokenAccount} {data : List Nat}
    {e : ProgErr} (h : TokenAccount.serialize t data = .error e) :
    e = .invalidAccountData :=
  writeInto_error h

theorem mintDeserialize_error_cases {data : List Nat} {e : ProgErr}
    (h : Mint.deserialize data = .error e) :
    e = .panicked ∨ e = .invalidAccountData := by
  unfold Mint.deserialize at h
  split at h
  · simp_all
  · split at h <;> simp_all

theorem taDeserialize_error_cases {data : List Nat} {e : ProgErr}
    (h : TokenAccount.deserialize data = .error e) :
    e = .panicked ∨ e = .invalidAccountData := by
  unfold TokenAccount.deserialize at h
  split at h
  · simp_all
  · split at h <;> simp_all

theorem processTransfer_srcDecodeErr {sourceData : List Nat} {e : ProgErr}
    (destData : List Nat) (k : Pubkey) (a : Nat)
    (h : TokenAccount.deserialize sourceData = .error e) :
    processTransfer sourceData destData k true a
      = ((sourceData, destData), some e) := by
  unfold processTransfer
  simp [h]

/-- After the source-side checks of a transfer pass, the only remaining
outcomes are success or a codec failure on one of the two buffers. -/
theorem processTransfer_tail {sourceData destData : List Nat}
    {src : TokenAccount} {k : Pubkey} {a : Nat}
    (hs : TokenAccount.deserialize sourceData = .ok src) (ho : src.owner = k)
    (hamt : ¬ src.amount < a) :
    (processTransfer sourceData destData k true a).2 = none ∨
      (processTransfer sourceData destData k true a).2 = some .panicked ∨
      (processTransfer sourceData destData k true a).2
        = some .invalidAccountData := by
  unfold processTransfer
  simp only [hs, hamt, Bool.not_true, Bool.false_eq_true, if_false, ite_false]
  rw [if_neg (not_not_intro ho)]
  split
  · rename_i e hw
    rcases taSerialize_error hw with rfl
    simp
  · rename_i s2 hw
    split
    · rename_i e2 hd
      rcases taDeserialize_error_cases hd with rfl | rfl <;> simp
    · rename_i dst hd
      split
      · rename_i e3 hw2
        rcases taSerialize_error hw2 with rfl
        simp
      · simp

theorem processBurn_tokenDecodeErr {tokenData : List Nat} {e : ProgErr}
    (mintData : List Nat) (k : Pubkey) (a : Nat)
    (h : TokenAccount.deserialize tokenData = .error e) :
    processBurn tokenData mintData k true a
      = ((tokenData, mintData), some e) := by
  unfold processBurn
  simp [h]

/-- After the token-side checks of a burn pass, the only remaining outcomes
are success or a codec failure. -/
theorem processBurn_tail {tokenData mintData : List Nat}
    {ta : TokenAccount} {k : Pubkey} {a : Nat}
    (ht : TokenAccount.deserialize tokenData = .ok ta) (ho : ta.owner = k)
    (hamt : ¬ ta.amount < a) :
    (processBurn tokenData mintData k true a).2 = none ∨
      (processBurn tokenData mintData k true a).2 = some .panicked ∨
      (processBurn tokenData mintData k true a).2 = some .invalidAccountData := by
  unfold processBurn
  simp only [ht, hamt, Bool.not_true, Bool.false_eq_true, if_false, ite_false]
  rw [if_neg (not_not_intro ho)]
  split
  · rename_i e hw
    rcases taSerialize_error hw with rfl
    simp
  · rename_i t2 hw
    split
    · rename_i e2 hd
      rcases mintDeserialize_error_cases hd with rfl | rfl <;> simp
    · rename_i mint hd
      split
      · rename_i e3 hw2
        rcases mintSerialize_error hw2 with rfl
        simp
      · simp

/-- After the authority checks of a MintTo pass, the only remaining outcomes
are success or a codec failure. -/
theorem processMintTo_tail {mintData tokenData : List Nat} {mint : Mint}
    {k : Pubkey} {a : Nat} (h44 : ¬ mintData.length < 44)
    (hdes : Mint.deserialize mintData = .ok mint)
    (hauth : mint.mint_authority = some k) :
    (processMintTo mintData tokenData k true a).2 = none ∨
      (processMintTo mintData tokenData k true a).2 = some .panicked ∨
      (processMintTo mintData tokenData k true a).2
        = some .invalidAccountData := by
  unfold processMintTo
  rw [if_neg h44]
  simp only [hdes, Bool.not_true, Bool.false_eq_true, if_false, ite_false]
  rw [hauth]
  dsimp only
  rw [if_neg (not_not_intro rfl)]
  split
  · rename_i e hw
    rcases mintSerialize_error hw with rfl
    simp
  · rename_i m2 hw
    split
    · rename_i e2 hd
      rcases taDeserialize_error_cases hd with rfl | rfl <;> simp
    · rename_i ta hd
      split
      · rename_i e3 hw2
        rcases taSerialize_error hw2 with rfl
        simp
      · simp

theorem processMintTo_authNone {mintData : List Nat} {mint : Mint}
    (tokenData : List Nat) (k : Pubkey) (a : Nat)
    (h44 : ¬ mintData.length < 44)
    (hdes : Mint.deserialize mintData = .ok mint)
    (hma : mint.mint_authority = none) :
    processMintTo mintData tokenData k true a
      = ((mintData, tokenData), some (.custom .Unauthorized)) := by
  unfold processMintTo
  rw [if_neg h44]
  simp [hdes, hma]

/-- Complete outcome analysis of `process_transfer`: either it fails before
any write (buffers unchanged, with one of the listed errors), or its result
is success or a codec failure. -/
theorem processTransfer_cases (s d : List Nat) (k : Pubkey) (sg : Bool)
    (a : Nat) :
    ((processTransfer s d k sg a).1 = (s, d) ∧
      ((processTransfer s d k sg a).2 = some (.custom .Unauthorized) ∨
       (processTransfer s d k sg a).2 = some (.custom .InsufficientFunds) ∨
       (processTransfer s d k sg a).2 = some .panicked ∨
       (processTransfer s d k sg a).2 = some .invalidAccountData)) ∨
    ((processTransfer s d k sg a).2 = none ∨
     (processTransfer s d k sg a).2 = some .panicked ∨
     (processTransfer s d k sg a).2 = some .invalidAccountData) := by
  cases sg with
  | false =>
    left
    rw [processTransfer_noSigner]
    exact ⟨rfl, Or.inl rfl⟩
  | true =>
    cases hsd : TokenAccount.deserialize s with
    | error e =>
      left
      rw [processTransfer_srcDecodeErr d k a hsd]
      rcases taDeserialize_error_cases hsd with rfl | rfl
      · exact ⟨rfl, Or.inr (Or.inr (Or.inl rfl))⟩
      · exact ⟨rfl, Or.inr (Or.inr (Or.inr rfl))⟩
    | ok src =>
      by_cases ho : src.owner = k
      · by_cases hlt : src.amount < a
        · left
          rw [processTransfer_insufficient d (taOf_eq_some.mpr hsd) ho hlt]
          exact ⟨rfl, Or.inr (Or.inl rfl)⟩
        · right
          exact processTransfer_tail hsd ho hlt
      · left
        rw [processTransfer_wrongOwner d a (taOf_eq_some.mpr hsd) ho]
        exact ⟨rfl, Or.inl rfl⟩

/-- Complete outcome analysis of `process_burn`. -/
theorem processBurn_cases (t mD : List Nat) (k : Pubkey) (sg : Bool)
    (a : Nat) :
    ((processBurn t mD k sg a).1 = (t, mD) ∧
      ((processBurn t mD k sg a).2 = some (.custom .Unauthorized) ∨
       (processBurn t mD k sg a).2 = some (.custom .InsufficientFunds) ∨
       (processBurn t mD k sg a).2 = some .panicked ∨
       (processBurn t mD k sg a).2 = some .invalidAccountData)) ∨
    ((processBurn t mD k sg a).2 = none ∨
     (processBurn t mD k sg a).2 = some .panicked ∨
     (processBurn t mD k sg a).2 = some .invalidAccountData) := by
  cases sg with
  | false =>
    left
    rw [processBurn_noSigner]
    exact ⟨rfl, Or.inl rfl⟩
  | true =>
    cases htd : TokenAccount.deserialize t with
    | error e =>
      left
      rw [processBurn_tokenDecodeErr mD k a htd]
      rcases taDeserialize_error_cases htd with rfl | rfl
      · exact ⟨rfl, Or.inr (Or.inr (Or.inl rfl))⟩
      · exact ⟨rfl, Or.inr (Or.inr (Or.inr rfl))⟩
    | ok ta =>
      by_cases ho : ta.owner = k
      · by_cases hlt : ta.amount < a
        · left
          rw [processBurn_insufficient mD (taOf_eq_some.mpr htd) ho hlt]
          exact ⟨rfl, Or.inr (Or.inl rfl)⟩
        · right
          exact processBurn_tail htd ho hlt
      · left
        rw [processBurn_wrongOwner mD a (taOf_eq_some.mpr htd) ho]
        exact ⟨rfl, Or.inl rfl⟩

/-- Complete outcome analysis of `process_mint_to`. -/
theorem processMintTo_cases (mD t : List Nat) (k : Pubkey) (sg : Bool)
    (a : Nat) :
    ((processMintTo mD t k sg a).1 = (mD, t) ∧
      ((processMintTo mD t k sg a).2 = some (.custom .Unauthorized) ∨
       (processMintTo mD t k sg a).2 = some .panicked ∨
       (processMintTo mD t k sg a).2 = some .invalidAccountData)) ∨
    ((processMintTo mD t k sg a).2 = none ∨
     (processMintTo mD t k sg a).2 = some .panicked ∨
     (processMintTo mD t k sg a).2 = some .invalidAccountData) := by
  by_cases h44 : mD.length < 44
  · left
    unfold processMintTo
    rw [if_pos h44]
    exact ⟨rfl, Or.inr (Or.inl rfl)⟩
  · cases hdes : Mint.deserialize mD with
    | error e =>
      left
      rw [processMintTo_decodeErr t k sg a h44 hdes]
      rcases mintDeserialize_error_cases hdes with rfl | rfl
      · exact ⟨rfl, Or.inr (Or.inl rfl)⟩
      · exact ⟨rfl, Or.inr (Or.inr rfl)⟩
    | ok mint =>
      cases sg with
      | false =>
        left
        rw [processMintTo_noSigner t k a (mintOf_eq_some.mpr hdes)]
        exact ⟨rfl, Or.inl rfl⟩
      | true =>
        cases hma : mint.mint_authority with
        | none =>
          left
          rw [processMintTo_authNone t k a h44 hdes hma]
          exact ⟨rfl, Or.inl rfl⟩
        | some auth =>
          by_cases hak : auth = k
          · subst hak
            right
            exact processMintTo_tail h44 hdes hma
          · left
            rw [processMintTo_wrongKey t k a (mintOf_eq_some.mpr hdes) hma hak]
            exact ⟨rfl, Or.inl rfl⟩

/-! ### The claims -/

/-- Claim C9: instruction decode maps a wire message to one of the six
operations exactly per the tag table (`instrSer` is that table, transcribed
from the `TokenInstruction` enum): every valid instruction round-trips;
every byte buffer either is exactly the borsh encoding of a valid
instruction and decodes to it, or is rejected with `InvalidInstruction`;
and in particular inputs with trailing unconsumed bytes, truncated
payloads, or an unrecognized tag are all rejected with
`InvalidInstruction`. -/
theorem claim9_instruction_codec :
    (∀ i, instrValid i → instrDeserialize (instrSer i) = .ok i) ∧
    (∀ data, isBytes data →
      (∃ i, instrValid i ∧ data = instrSer i ∧ instrDeserialize data = .ok i)
        ∨ instrDeserialize data = .error .InvalidInstruction) ∧
    (∀ i extra, instrValid i → extra ≠ [] →
      instrDeserialize (instrSer i ++ extra) = .error .InvalidInstruction) ∧
    (∀ i n, instrValid i → isBytes (instrSer i) → n < (instrSer i).length →
      instrDeserialize ((instrSer i).take n) = .error .InvalidInstruction) ∧
    (∀ t rest, 6 ≤ t →
      instrDeserialize (t :: rest) = .error .InvalidInstruction) := by
  refine ⟨fun i hv => instrDeserialize_ser hv, fun data hb => ?_,
    fun i extra hv hne => instrDeserialize_trailing hv hne,
    fun i n hv hb hn => instrDeserialize_truncated hv hb hn,
    fun t rest ht => instrDeserialize_badTag rest ht⟩
  rcases instrDeserialize_total data with ⟨i, hi⟩ | herr
  · obtain ⟨heq, hvi⟩ := instrDeserialize_sound hb hi
    exact Or.inl ⟨i, hvi, heq, hi⟩
  · exact Or.inr herr

/-- Claim C9 witness: concrete instances — a MintTo message round-trips, a
Transfer message with a trailing byte, a truncated Burn message, and a
message with tag 9 are each rejected with `InvalidInstruction`. -/
theorem claim9_witness :
    instrDeserialize (instrSer (.MintTo 1000)) = .ok (.MintTo 1000) ∧
    instrDeserialize (instrSer (.Transfer 400) ++ [0])
      = .error .InvalidInstruction ∧
    instrDeserialize ((instrSer (.Burn 600)).take 5)
      = .error .InvalidInstruction ∧
    instrDeserialize (9 :: [0]) = .error .InvalidInstruction :=
  ⟨claim9_instruction_codec.1 _ (by unfold instrValid U64MOD; omega),
   claim9_instruction_codec.2.2.1 _ _ (by unfold instrValid U64MOD; omega)
     (by decide),
   claim9_instruction_codec.2.2.2.1 _ _ (by unfold instrValid U64MOD; omega)
     (by unfold isBytes; decide) (by decide),
   claim9_instruction_codec.2.2.2.2 9 [0] (by decide)⟩

/-- Claim C7 (amended): the record-codec round-trip
`deserialize (serialize m) = m` holds for every `TokenAccount` with
in-range fields, and for every `Mint` with in-range fields whose two
authority fields are both present — only then is the encoding the full 76
bytes that `Mint::deserialize` demands.  A `Mint` with an absent authority
encodes to fewer bytes and its own decode rejects it (see the
counterexample). -/
theorem claim7_roundtrip_amended :
    (∀ (m : Mint) (a f : Pubkey), m.supply < U64MOD →
      m.mint_authority = some a → m.freeze_authority = some f →
      a.length = 32 → f.length = 32 →
      Mint.deserialize (mintSer m) = .ok m) ∧
    (∀ t : TokenAccount, t.amount < U64MOD → t.mint.length = 32 →
      t.owner.length = 32 → TokenAccount.deserialize (taSer t) = .ok t) :=
  ⟨fun m a f h1 ha hf hal hfl => mintDeserialize_ser h1 ha hf hal hfl,
   fun t h1 h2 h3 => taDeserialize_ser h1 h2 h3⟩

/-- Claim C7 counterexample: the valid `Mint` value with no authorities
encodes to 12 bytes, and decoding that encoding panics on the out-of-range
slice `data[..76]` instead of returning the value — the round-trip fails. -/
theorem claim7_counterexample :
    Mint.deserialize (mintSer ⟨true, 9, none, 0, none⟩) = .error .panicked ∧
    (Except.error ProgErr.panicked : Except ProgErr Mint)
      ≠ .ok ⟨true, 9, none, 0, none⟩ := by
  refine ⟨rfl, ?_⟩
  simp

/-- Claim C7 witness: the round-trip at the concrete records `mint0` and
`acct0`. -/
theorem claim7_witness :
    Mint.deserialize (mintSer mint0) = .ok mint0 ∧
    TokenAccount.deserialize (taSer acct0) = .ok acct0 :=
  ⟨claim7_roundtrip_amended.1 mint0 keyA keyHard (by decide) rfl rfl
     (by decide) (by decide),
   claim7_roundtrip_amended.2 acct0 (by decide) (by decide) (by decide)⟩

/-- Claim C8 (amended): record decode of a buffer of at least the fixed
record size reads only the fixed-size prefix; but a buffer SHORTER than the
fixed size makes the decoder panic on the out-of-range slice (`data[..76]`
resp. `data[..74]`) instead of returning a `DecodeError`. -/
theorem claim8_decode_amended :
    (∀ data : List Nat, data.length < 76 →
      Mint.deserialize data = .error .panicked) ∧
    (∀ data : List Nat, 76 ≤ data.length →
      Mint.deserialize data = Mint.deserialize (data.take 76)) ∧
    (∀ data : List Nat, data.length < 74 →
      TokenAccount.deserialize data = .error .panicked) ∧
    (∀ data : List Nat, 74 ≤ data.length →
      TokenAccount.deserialize data = TokenAccount.deserialize (data.take 74)) := by
  refine ⟨fun data h => by unfold Mint.deserialize; rw [if_pos h],
    fun data h => ?_,
    fun data h => by unfold TokenAccount.deserialize; rw [if_pos h],
    fun data h => ?_⟩
  · have htt : (data.take 76).take 76 = data.take 76 := by
      simp [List.take_take]
    unfold Mint.deserialize
    rw [if_neg (by omega), if_neg (by simp [List.length_take]; omega), htt]
  · have htt : (data.take 74).take 74 = data.take 74 := by
      simp [List.take_take]
    unfold TokenAccount.deserialize
    rw [if_neg (by omega), if_neg (by simp [List.length_take]; omega), htt]

/-- Claim C8 counterexample: decode of a 75-byte buffer panics — it does
not return the record-level `DecodeError` (`InvalidAccountData`) the claim
requires for short buffers. -/
theorem claim8_counterexample :
    Mint.deserialize (List.replicate 75 0) = .error .panicked ∧
    ProgErr.panicked ≠ ProgErr.invalidAccountData ∧
    TokenAccount.deserialize [] = .error .panicked := by
  refine ⟨rfl, by simp, rfl⟩

/-- Claim C8 witness: the amended statements at concrete buffers. -/
theorem claim8_witness :
    Mint.deserialize (List.replicate 10 0) = .error .panicked ∧
    TokenAccount.deserialize (List.replicate 80 0)
      = TokenAccount.deserialize ((List.replicate 80 0).take 74) :=
  ⟨claim8_decode_amended.1 _ (by decide),
   claim8_decode_amended.2.2.2 _ (by decide)⟩

/-- Claim C2 (code behaviour at the failing input): `InitializeMint` with
`decimals = 9`, `mint_authority = keyA`, `freeze_authority = None` on an
eligible zeroed 76-byte buffer succeeds and writes
`is_initialized = true, decimals = 9, mint_authority = Some keyA,
supply = 0` — but stores the hardcoded freeze authority `[1; 32]`
(lib.rs line 217) instead of the caller-supplied `None`. -/
theorem claim2_freeze_hardcoded :
    (processInitializeMint (List.replicate 76 0) true true 9 keyA none).2
      = none ∧
    mintOf (processInitializeMint (List.replicate 76 0) true true 9 keyA
        none).1 = some ⟨true, 9, some keyA, 0, some keyHard⟩ ∧
    some keyHard ≠ (none : Option Pubkey) := by
  refine ⟨rfl, by decide, by simp⟩

/-- Claim C5 (amended): the `is_frozen` flag is recorded but never
enforced — `process_transfer`, `process_burn` and `process_mint_to` contain
no frozen check and can never return `AccountFrozen`, for any input
whatsoever.  Balance-changing operations on frozen accounts succeed when
their other checks pass (see the counterexample). -/
theorem claim5_frozen_amended :
    (∀ (s d : List Nat) (k : Pubkey) (sg : Bool) (a : Nat),
      (processTransfer s d k sg a).2 ≠ some (.custom .AccountFrozen)) ∧
    (∀ (t mD : List Nat) (k : Pubkey) (sg : Bool) (a : Nat),
      (processBurn t mD k sg a).2 ≠ some (.custom .AccountFrozen)) ∧
    (∀ (mD t : List Nat) (k : Pubkey) (sg : Bool) (a : Nat),
      (processMintTo mD t k sg a).2 ≠ some (.custom .AccountFrozen)) := by
  refine ⟨fun s d k sg a => ?_, fun t mD k sg a => ?_, fun mD t k sg a => ?_⟩
  · rcases processTransfer_cases s d k sg a with ⟨-, h | h | h | h⟩ | h | h | h <;>
      rw [h] <;> simp
  · rcases processBurn_cases t mD k sg a with ⟨-, h | h | h | h⟩ | h | h | h <;>
      rw [h] <;> simp
  · rcases processMintTo_cases mD t k sg a with ⟨-, h | h | h⟩ | h | h | h <;>
      rw [h] <;> simp

/-- Claim C5 counterexample: a transfer out of a token account with
`is_frozen = true` succeeds, moving the balance, where the claim requires
failure with `AccountFrozen`. -/
theorem claim5_counterexample :
    (processTransfer (taSer ⟨true, keyM, keyO, 10, true⟩)
        (taSer ⟨true, keyM, keyP, 0, false⟩) keyO true 5).2 = none ∧
    (processTransfer (taSer ⟨true, keyM, keyO, 10, true⟩)
        (taSer ⟨true, keyM, keyP, 0, false⟩) keyO true 5).1.1
      = taSer ⟨true, keyM, keyO, 5, true⟩ := by
  decide

/-- Claim C6 (amended): no mint-match validation exists anywhere in the
engine — `process_mint_to`, `process_transfer` and `process_burn` never
compare a token account's `mint` field with the supplied mint (MintTo is
not even given the mint's address) and can never return `MintMismatch`.
Cross-mint operations succeed when their other checks pass (see the
counterexample). -/
theorem claim6_mint_mismatch_amended :
    (∀ (s d : List Nat) (k : Pubkey) (sg : Bool) (a : Nat),
      (processTransfer s d k sg a).2 ≠ some (.custom .MintMismatch)) ∧
    (∀ (t mD : List Nat) (k : Pubkey) (sg : Bool) (a : Nat),
      (processBurn t mD k sg a).2 ≠ some (.custom .MintMismatch)) ∧
    (∀ (mD t : List Nat) (k : Pubkey) (sg : Bool) (a : Nat),
      (processMintTo mD t k sg a).2 ≠ some (.custom .MintMismatch)) := by
  refine ⟨fun s d k sg a => ?_, fun t mD k sg a => ?_, fun mD t k sg a => ?_⟩
  · rcases processTransfer_cases s d k sg a with ⟨-, h | h | h | h⟩ | h | h | h <;>
      rw [h] <;> simp
  · rcases processBurn_cases t mD k sg a with ⟨-, h | h | h | h⟩ | h | h | h <;>
      rw [h] <;> simp
  · rcases processMintTo_cases mD t k sg a with ⟨-, h | h | h⟩ | h | h | h <;>
      rw [h] <;> simp

/-- Claim C6 counterexample: a transfer from an account of mint `keyM` to
an account of the different mint `keyQ` succeeds, where the claim requires
failure with `MintMismatch`. -/
theorem claim6_counterexample :
    keyM ≠ keyQ ∧
    (processTransfer (taSer ⟨true, keyM, keyO, 10, false⟩)
        (taSer ⟨true, keyQ, keyP, 0, false⟩) keyO true 5).2 = none ∧
    taOf (processTransfer (taSer ⟨true, keyM, keyO, 10, false⟩)
        (taSer ⟨true, keyQ, keyP, 0, false⟩) keyO true 5).1.2
      = some ⟨true, keyQ, keyP, 5, false⟩ := by
  decide

/-- Claim C3 (amended): the multi-record handlers leave all buffers
unchanged only when the failure is detected before the first record is
written — every `Unauthorized` or `InsufficientFunds` failure occurs before
any write and returns the buffers untouched.  A failure detected AFTER the
first record has been written (the second record failing to decode or to
serialize) leaves the first record modified (see the counterexample), so
the all-or-nothing property of the claim does not hold. -/
theorem claim3_atomicity_amended :
    (∀ (s d : List Nat) (k : Pubkey) (sg : Bool) (a : Nat),
      ((processTransfer s d k sg a).2 = some (.custom .Unauthorized) ∨
       (processTransfer s d k sg a).2 = some (.custom .InsufficientFunds)) →
      (processTransfer s d k sg a).1 = (s, d)) ∧
    (∀ (t mD : List Nat) (k : Pubkey) (sg : Bool) (a : Nat),
      ((processBurn t mD k sg a).2 = some (.custom .Unauthorized) ∨
       (processBurn t mD k sg a).2 = some (.custom .InsufficientFunds)) →
      (processBurn t mD k sg a).1 = (t, mD)) ∧
    (∀ (mD t : List Nat) (k : Pubkey) (sg : Bool) (a : Nat),
      (processMintTo mD t k sg a).2 = some (.custom .Unauthorized) →
      (processMintTo mD t k sg a).1 = (mD, t)) := by
  refine ⟨fun s d k sg a hyp => ?_, fun t mD k sg a hyp => ?_,
    fun mD t k sg a hyp => ?_⟩
  · rcases processTransfer_cases s d k sg a with ⟨h1, -⟩ | h | h | h
    · exact h1
    all_goals rw [h] at hyp; rcases hyp with hyp | hyp <;> simp at hyp
  · rcases processBurn_cases t mD k sg a with ⟨h1, -⟩ | h | h | h
    · exact h1
    all_goals rw [h] at hyp; rcases hyp with hyp | hyp <;> simp at hyp
  · rcases processMintTo_cases mD t k sg a with ⟨h1, -⟩ | h | h | h
    · exact h1
    all_goals rw [h] at hyp; simp at hyp

/-- Claim C3 counterexample: a transfer whose destination buffer fails to
decode (leading byte 2 is not a valid borsh bool) returns a failure, yet
the source buffer has already been debited and rewritten — the operation is
not all-or-nothing. -/
theorem claim3_counterexample :
    (processTransfer (taSer ⟨true, keyM, keyO, 10, false⟩)
        (2 :: List.replicate 73 0) keyO true 5).2
      = some .invalidAccountData ∧
    (processTransfer (taSer ⟨true, keyM, keyO, 10, false⟩)
        (2 :: List.replicate 73 0) keyO true 5).1.1
      ≠ taSer ⟨true, keyM, keyO, 10, false⟩ ∧
    (processTransfer (taSer ⟨true, keyM, keyO, 10, false⟩)
        (2 :: List.replicate 73 0) keyO true 5).1.1
      = taSer ⟨true, keyM, keyO, 5, false⟩ := by
  decide

/-- Claim C3 witness: a transfer rejected for a missing signature leaves
both buffers unchanged. -/
theorem claim3_witness :
    (processTransfer (taSer acct0) (taSer acct0) keyO false 3).1
      = (taSer acct0, taSer acct0) :=
  claim3_atomicity_amended.1 _ _ _ _ _ (Or.inl (by decide))

theorem wsub_underflow {x a : Nat} (h1 : x < a) (h2 : a < U64MOD) :
    wsub x a = U64MOD + x - a := by
  unfold wsub U64MOD at *
  omega

/-- Claim C4 (amended): only the debit of the Transfer/Burn token account
is guarded (by the `InsufficientFunds` balance check, so that subtraction
never underflows); every other arithmetic step is UNCHECKED and wraps
modulo `2^64` instead of being rejected: a MintTo adds to `supply` and to
the destination balance modulo `2^64` (see the counterexample for an
overflow that succeeds), and a Burn of an amount exceeding the recorded
supply wraps the supply around instead of failing. -/
theorem claim4_arith_amended :
    (∀ (sourceData destData : List Nat) (k : Pubkey) (a : Nat)
        (src dst : TokenAccount),
      taOf sourceData = some src → sourceData.length = 74 →
      src.owner = k → ¬ src.amount < a → src.amount < U64MOD →
      taOf destData = some dst → destData.length = 74 →
      processTransfer sourceData destData k true a =
        ((taSer { src with amount := src.amount - a },
          taSer { dst with amount := (dst.amount + a) % U64MOD }), none)) ∧
    (∀ (mintData tokenData : List Nat) (a : Nat) (m : Mint) (am fm : Pubkey)
        (ta : TokenAccount),
      mintOf mintData = some m → mintData.length = 76 →
      m.mint_authority = some am → m.freeze_authority = some fm →
      taOf tokenData = some ta → tokenData.length = 74 →
      processMintTo mintData tokenData am true a =
        ((mintSer { m with supply := (m.supply + a) % U64MOD },
          taSer { ta with amount := (ta.amount + a) % U64MOD }), none)) ∧
    (∀ (tokenData mintData : List Nat) (k : Pubkey) (a : Nat)
        (ta : TokenAccount) (m : Mint) (am fm : Pubkey),
      taOf tokenData = some ta → tokenData.length = 74 →
      ta.owner = k → ¬ ta.amount < a → ta.amount < U64MOD →
      mintOf mintData = some m → mintData.length = 76 →
      m.mint_authority = some am → m.freeze_authority = some fm →
      m.supply < a →
      processBurn tokenData mintData k true a =
        ((taSer { ta with amount := ta.amount - a },
          mintSer { m with supply := U64MOD + m.supply - a }), none)) := by
  refine ⟨fun sourceData destData k a src dst hs h74s ho hamt hlt hd h74d => ?_,
    fun mintData tokenData a m am fm ta hm h76 hma hmf hta h74 => ?_,
    fun tokenData mintData k a ta m am fm ht h74 ho hamt hlt hm h76 hma hmf
      hsup => ?_⟩
  · rw [processTransfer_success hs h74s ho hamt hd h74d,
      wsub_eq_sub (by omega) hlt]
    rfl
  · rw [processMintTo_success a hm h76 hma hmf hta h74]
    rfl
  · rw [processBurn_success ht h74 ho hamt hm h76 hma hmf,
      wsub_eq_sub (by omega) hlt, wsub_underflow hsup (by omega)]

/-- Claim C4 counterexample: a MintTo of 1 on a mint whose supply is
`2^64 - 1` succeeds with the supply wrapped around to 0 — it is not
rejected with an error as the claim requires. -/
theorem claim4_counterexample :
    (processMintTo (mintSer ⟨true, 9, some keyA, U64MOD - 1, some keyHard⟩)
        (taSer acct0) keyA true 1).2 = none ∧
    mintOf (processMintTo
        (mintSer ⟨true, 9, some keyA, U64MOD - 1, some keyHard⟩)
        (taSer acct0) keyA true 1).1.1
      = some ⟨true, 9, some keyA, 0, some keyHard⟩ := by
  decide

/-- Claim C4 witness: the wrapping MintTo equation at the concrete
full-supply mint. -/
theorem claim4_witness :
    processMintTo (mintSer ⟨true, 9, some keyA, U64MOD - 1, some keyHard⟩)
        (taSer acct0) keyA true 1 =
      ((mintSer { (⟨true, 9, some keyA, U64MOD - 1, some keyHard⟩ : Mint) with
          supply := (U64MOD - 1 + 1) % U64MOD },
        taSer { acct0 with amount := (acct0.amount + 1) % U64MOD }), none) :=
  claim4_arith_amended.2.1 _ _ 1 _ keyA keyHard _ (by decide) (by decide)
    rfl rfl (by decide) (by decide)

theorem mintDeserialize_ser_tail {m : Mint} {a f : Pubkey}
    (h1 : m.supply < U64MOD) (ha : m.mint_authority = some a)
    (hf : m.freeze_authority = some f) (hal : a.length = 32)
    (hfl : f.length = 32) (tail : List Nat) :
    Mint.deserialize (mintSer m ++ tail) = .ok m := by
  have hlen : (mintSer m).length = 76 := mintSer_length_some ha hf hal hfl
  have h2 : optKeyLen m.mint_authority := by
    intro k hk; rw [ha] at hk; cases hk; exact hal
  have h3 : optKeyLen m.freeze_authority := by
    intro k hk; rw [hf] at hk; cases hk; exact hfl
  have hp := mintParse_ser h1 h2 h3 []
  rw [List.append_nil] at hp
  have htake : (mintSer m ++ tail).take 76 = mintSer m := by
    rw [List.take_append_eq_append_take, List.take_of_length_le (by omega),
      hlen]
    simp
  unfold Mint.deserialize
  rw [if_neg (by rw [List.length_append]; omega), htake, hp]

/-- Claim C10 (amended): once a SetMintAuthority sets `mint_authority` to
`None`, the revoked mint is terminal for MintTo and SetMintAuthority —
every later MintTo and SetMintAuthority on that mint fails and leaves the
buffer byte-for-byte unchanged, so neither operation can restore an
authority — but the failure is the record decode error
`InvalidAccountData`, not `Unauthorized`: the borsh encoding of a
`None`-authority mint is shorter than 76 bytes, so the fixed-76-byte
`Mint::deserialize` always rejects the rewritten buffer on its unconsumed
trailing bytes.  Terminality does NOT extend to the whole engine: because
`process_initialize_mint` performs no `is_initialized` check, re-running
InitializeMint on the revoked buffer (still program-owned and rent-exempt)
succeeds and stores `mint_authority = Some(caller key)`, restoring an
authority (final conjunct). -/
theorem claim10_terminal_amended :
    ∀ (b : List Nat) (m : Mint) (am : Pubkey), isBytes b →
      mintOf b = some m → m.mint_authority = some am →
      ∀ b', b' = (processSetMintAuthority b am true none).1 →
        (processSetMintAuthority b am true none).2 = none ∧
        (∀ (t : List Nat) (k : Pubkey) (sg : Bool) (a : Nat),
          processMintTo b' t k sg a = ((b', t), some .invalidAccountData)) ∧
        (∀ (k : Pubkey) (sg : Bool) (na : Option Pubkey),
          processSetMintAuthority b' k sg na
            = (b', some .invalidAccountData)) ∧
        (∀ (dec : Nat) (auth : Pubkey) (fa : Option Pubkey),
          auth.length = 32 →
          (processInitializeMint b' true true dec auth fa).2 = none ∧
          mintOf (processInitializeMint b' true true dec auth fa).1
            = some ⟨true, dec, some auth, 0, some keyHard⟩) := by
  intro b m am hb hm hma b' hb'
  obtain ⟨h76, hka, hkf, hsupB⟩ := mintOf_struct hm
  have hsup : m.supply < U64MOD := hsupB hb
  have hlt : (mintSer { m with mint_authority := none }).length < 76 :=
    mintSer_length_auth_none rfl hkf
  have hle : (mintSer { m with mint_authority := none }).length ≤ b.length := by
    omega
  have hrun := processSetAuth_success none hm hma hle
  have hb'eq : b' = mintSer { m with mint_authority := none }
      ++ b.drop (mintSer { m with mint_authority := none }).length := by
    rw [hb', hrun]
  have hlen' : 76 ≤ (mintSer { m with mint_authority := none }
      ++ b.drop (mintSer { m with mint_authority := none }).length).length := by
    rw [List.length_append, List.length_drop]
    omega
  have hdes : Mint.deserialize b' = .error .invalidAccountData := by
    rw [hb'eq]
    exact mintDeserialize_trailing hsup optKeyLen_none hkf hlt hlen'
  have hblen : 76 ≤ b'.length := by
    rw [hb'eq, List.length_append, List.length_drop]
    omega
  refine ⟨by rw [hrun], fun t k sg a => ?_, fun k sg na => ?_,
    fun dec auth fa hal => ?_⟩
  · exact processMintTo_decodeErr t k sg a (by omega) hdes
  · exact processSetAuth_decodeErr k sg na hdes
  · have hserlen :
        (mintSer (Mint.new dec auth (some (List.replicate 32 1)))).length
          = 76 :=
      mintSer_length_some rfl rfl hal (by simp)
    have hw : Mint.serialize (Mint.new dec auth (some (List.replicate 32 1)))
        b' = .ok (mintSer (Mint.new dec auth (some (List.replicate 32 1)))
          ++ b'.drop
            (mintSer (Mint.new dec auth (some (List.replicate 32 1)))).length) :=
      writeInto_ok (by rw [hserlen]; exact hblen)
    have hre : mintOf (mintSer (Mint.new dec auth (some (List.replicate 32 1)))
        ++ b'.drop
          (mintSer (Mint.new dec auth (some (List.replicate 32 1)))).length)
        = some (Mint.new dec auth (some (List.replicate 32 1))) :=
      mintOf_eq_some.mpr
        (mintDeserialize_ser_tail U64MOD_pos rfl rfl hal (by simp) _)
    unfold processInitializeMint
    simp only [Bool.not_true, Bool.false_eq_true, if_false, ite_false, hw]
    exact ⟨trivial, hre⟩

/-- Claim C10 counterexample: after revoking the authority of a concrete
mint, a MintTo signed by the old authority fails with `InvalidAccountData`,
not with `Unauthorized` as the claim states; moreover re-running
InitializeMint on the revoked buffer succeeds and restores
`mint_authority = Some keyO`, contradicting the claim that no operation
ever changes `mint_authority` from `None` back to `Some`. -/
theorem claim10_counterexample :
    (processMintTo
        (processSetMintAuthority (mintSer ⟨true, 9, some keyA, 5, some keyHard⟩)
          keyA true none).1
        (taSer acct0) keyA true 7).2 = some .invalidAccountData ∧
    some ProgErr.invalidAccountData ≠ some (ProgErr.custom .Unauthorized) ∧
    mintOf (processInitializeMint
        (processSetMintAuthority (mintSer ⟨true, 9, some keyA, 5, some keyHard⟩)
          keyA true none).1
        true true 3 keyO none).1
      = some ⟨true, 3, some keyO, 0, some keyHard⟩ := by
  refine ⟨by decide, by decide, by decide⟩

/-- Claim C10 witness: the amended statement at the concrete mint `mint0` —
revocation succeeds, a later MintTo fails with `InvalidAccountData`
leaving the buffer unchanged, and a later InitializeMint restores an
authority. -/
theorem claim10_witness :
    (processSetMintAuthority (mintSer mint0) keyA true none).2 = none ∧
    processMintTo (processSetMintAuthority (mintSer mint0) keyA true none).1
        (taSer acct0) keyO false 2
      = (((processSetMintAuthority (mintSer mint0) keyA true none).1,
          taSer acct0), some .invalidAccountData) ∧
    mintOf (processInitializeMint
        (processSetMintAuthority (mintSer mint0) keyA true none).1
        true true 7 keyP none).1
      = some ⟨true, 7, some keyP, 0, some keyHard⟩ :=
  have h := claim10_terminal_amended (mintSer mint0) mint0 keyA
    (by unfold isBytes; decide) (by decide) rfl _ rfl
  ⟨h.1, h.2.1 (taSer acct0) keyO false 2,
   (h.2.2.2 7 keyP none (by decide)).2⟩

/-- Claim C1 (amended): the conservation law holds for every sequence of
MintTo, Transfer and Burn operations applied to a consistent state (an
initialized, decodable mint and its token-account buffers, with
`supply = Σ amounts`) PROVIDED each MintTo keeps `supply + amount` below
`2^64`: at every intermediate state the mint's recorded supply equals the
sum of the recorded balances.  Without the overflow proviso the unchecked
wrapping addition of `process_mint_to` breaks the law (see the
counterexample); sequences containing InitializeMint/InitializeAccount
steps are excluded because the code permits re-initialization, which resets
`supply` or a balance and also breaks the law. -/
theorem claim1_conservation_amended :
    ∀ (s : LedgerState) (ops : List Op) (n : Nat), invB s = true →
      opsOkb s ops = true →
      supplyOf (applyOps s (ops.take n)) = sumAmounts (applyOps s (ops.take n)) :=
  fun _ _ n hinv hok => (invB_spec.mp (invB_applyOps_take n hinv hok)).2.2

/-- Claim C1 counterexample: starting from a fresh mint with two fresh
accounts, minting `2^64 - 1` units to the second account and then 1 unit to
the first succeeds, leaving the recorded supply wrapped to 0 while the
balances sum to `2^64` — conservation is violated by the unchecked
addition. -/
theorem claim1_counterexample :
    invB ⟨mintSer mint0, [taSer acct0, taSer acct0]⟩ = true ∧
    supplyOf (applyOps ⟨mintSer mint0, [taSer acct0, taSer acct0]⟩
        [.mintTo 1 keyA true (U64MOD - 1), .mintTo 0 keyA true 1]) = 0 ∧
    sumAmounts (applyOps ⟨mintSer mint0, [taSer acct0, taSer acct0]⟩
        [.mintTo 1 keyA true (U64MOD - 1), .mintTo 0 keyA true 1]) = U64MOD ∧
    (0 : Nat) ≠ U64MOD := by
  refine ⟨by decide, by decide, by decide, by decide⟩

/-- Claim C1 witness: conservation after one admitted MintTo on a concrete
one-account ledger. -/
theorem claim1_conservation_witness :
    supplyOf (applyOps ⟨mintSer mint0, [taSer acct0]⟩
        ([Op.mintTo 0 keyA true 5].take 1))
      = sumAmounts (applyOps ⟨mintSer mint0, [taSer acct0]⟩
        ([Op.mintTo 0 keyA true 5].take 1)) :=
  claim1_conservation_amended _ _ 1 (by decide) (by decide)

/-- Claim C5 witness: the never-`AccountFrozen` statement at a concrete
input. -/
theorem claim5_witness :
    (processTransfer (taSer ⟨true, keyM, keyO, 10, true⟩)
        (taSer ⟨true, keyM, keyP, 0, false⟩) keyO true 5).2
      ≠ some (.custom .AccountFrozen) :=
  claim5_frozen_amended.1 _ _ _ _ _

/-- Claim C6 witness: the never-`MintMismatch` statement at a concrete
input. -/
theorem claim6_witness :
    (processTransfer (taSer ⟨true, keyM, keyO, 10, false⟩)
        (taSer ⟨true, keyQ, keyP, 0, false⟩) keyO true 5).2
      ≠ some (.custom .MintMismatch) :=
  claim6_mint_mismatch_amended.1 _ _ _ _ _
